import Mathlib

/-!
Verification of the Markdown-to-HTML converter `markdownToHtml` from
`public/script.js` of the gemini-chatbot-api repository.

The JavaScript source is shallowly embedded over `List Char`:
* `escapeHtmlL` embeds the `escapeHtml` helper (five sequential global
  single-character `String.replace` calls, `&` first);
* `spanRepl` / `spanRepl2` embed a global JavaScript regex replace of the
  shape `/d([^d]+)d/g` resp. `/dd([^d]+)dd/g` (leftmost match, greedy
  delimiter-free content, scan resumes after each match), which instantiate
  to the bold / italic / inline-code rewrites of `processInline`;
* `splitCodeFences` embeds `text.split(/(```[\s\S]*?```)/)` (lazy match:
  a fenced block runs from the first triple backtick to the next triple
  backtick at least three positions later; separators are kept);
* `processLine` / `processOrdinary` embed the per-line block state machine
  (heading, horizontal rule, unordered list, ordered list, default), with
  the `closeParagraph` / `closeList` helpers;
* `renderCodeBlock` embeds the code-block branch including the language
  match `/```(\w*)\n/`, the opening-fence strip `/```\w*\n?/`, the closing
  strip `/```$/`, `trim`, and escaping.

JavaScript `\s` / `trim` are modelled on the ASCII whitespace characters
(space, tab, newline, carriage return, vertical tab, form feed); `\w` is
`[A-Za-z0-9_]` and `\d` is `[0-9]`, exactly as in JavaScript.
-/

/-- The backtick character (code point 96). -/
def btick : Char := Char.ofNat 96

/-- The apostrophe character (code point 39). -/
def apos : Char := Char.ofNat 39

/-- JavaScript whitespace (`\s`, `trim`), restricted to ASCII. -/
def isSpaceChar (c : Char) : Bool :=
  c = ' ' || c = '\t' || c = '\n' || c = '\r' || c = Char.ofNat 11 || c = Char.ofNat 12

/-- JavaScript word character `\w`, i.e. `[A-Za-z0-9_]`. -/
def isWordChar (c : Char) : Bool :=
  c.isAlphanum || c = '_'

/-- JavaScript `String.prototype.trim` (both ends, whitespace). -/
def jsTrim (l : List Char) : List Char :=
  ((l.dropWhile isSpaceChar).reverse.dropWhile isSpaceChar).reverse

/-- JavaScript `str.split('\n')` on a character list: every newline is a
separator and empty pieces are kept (`"".split('\n')` is `[""]`). -/
def splitLines : List Char → List (List Char)
  | [] => [[]]
  | c :: t =>
    if c = '\n' then [] :: splitLines t
    else
      match splitLines t with
      | h :: r => (c :: h) :: r
      | [] => [[c]]

/-- JavaScript global replace of the single character `d` by the string `r`
(`str.replace(/d/g, r)` for a one-character pattern). -/
def replaceChar (d : Char) (r : List Char) : List Char → List Char
  | [] => []
  | c :: t => (if c = d then r else [c]) ++ replaceChar d r t

/-- The `escapeHtml` helper of `markdownToHtml`: five sequential global
replacements, `&` first, then `<`, `>`, `"`, `'`. -/
def escapeHtmlL (s : List Char) : List Char :=
  replaceChar apos "&#039;".toList
    (replaceChar '"' "&quot;".toList
      (replaceChar '>' "&gt;".toList
        (replaceChar '<' "&lt;".toList
          (replaceChar '&' "&amp;".toList s))))

theorem length_dropWhile_le (p : Char → Bool) (l : List Char) :
    (l.dropWhile p).length ≤ l.length := by
  conv_rhs => rw [← List.takeWhile_append_dropWhile p l]
  rw [List.length_append]
  exact Nat.le_add_left _ _

/-- Fuel-driven scanner of `spanRepl` (the fuel only forces structural
recursion; it is irrelevant once it is at least the list length). -/
def spanReplGo (d : Char) (opn cls : List Char) : Nat → List Char → List Char
  | _, [] => []
  | 0, c :: t => c :: t
  | fuel + 1, c :: t =>
    if c = d ∧ t.takeWhile (· ≠ d) ≠ [] ∧ t.dropWhile (· ≠ d) ≠ [] then
      opn ++ t.takeWhile (· ≠ d) ++ cls ++ spanReplGo d opn cls fuel (t.dropWhile (· ≠ d)).tail
    else
      c :: spanReplGo d opn cls fuel t

/-- JavaScript `str.replace(/d([^d]+)d/g, opn + "$1" + cls)`: at each scan
position a match needs the delimiter, a nonempty run of non-delimiter
characters, and the delimiter again; on a match the scan resumes after the
closing delimiter, otherwise one character is copied. -/
def spanRepl (d : Char) (opn cls : List Char) (l : List Char) : List Char :=
  spanReplGo d opn cls l.length l

/-- Fuel-driven scanner of `spanRepl2`. -/
def spanRepl2Go (d : Char) (opn cls : List Char) : Nat → List Char → List Char
  | _, [] => []
  | _, [c] => [c]
  | 0, c1 :: c2 :: t => c1 :: c2 :: t
  | fuel + 1, c1 :: c2 :: t =>
    if c1 = d ∧ c2 = d ∧ t.takeWhile (· ≠ d) ≠ [] ∧ (t.dropWhile (· ≠ d)).take 2 = [d, d] then
      opn ++ t.takeWhile (· ≠ d) ++ cls ++ spanRepl2Go d opn cls fuel ((t.dropWhile (· ≠ d)).drop 2)
    else
      c1 :: spanRepl2Go d opn cls fuel (c2 :: t)

/-- JavaScript `str.replace(/dd([^d]+)dd/g, opn + "$1" + cls)` for a
doubled one-character delimiter (the bold rule `/\*\*([^\*]+)\*\*/g`). -/
def spanRepl2 (d : Char) (opn cls : List Char) (l : List Char) : List Char :=
  spanRepl2Go d opn cls l.length l

/-- Opening strong tag emitted by the bold rule. -/
def strongO : List Char := "<strong>".toList

/-- Closing strong tag emitted by the bold rule. -/
def strongC : List Char := "</strong>".toList

/-- Opening em tag emitted by the italic rule. -/
def emO : List Char := "<em>".toList

/-- Closing em tag emitted by the italic rule. -/
def emC : List Char := "</em>".toList

/-- Opening code tag emitted by the inline-code rule. -/
def codeO : List Char := "<code>".toList

/-- Closing code tag emitted by the inline-code rule. -/
def codeC : List Char := "</code>".toList

/-- `processInline` of the source: escape, then bold, then italic, then
inline code, in that order. -/
def processInline (line : List Char) : List Char :=
  spanRepl btick codeO codeC
    (spanRepl '*' emO emC
      (spanRepl2 '*' strongO strongC (escapeHtmlL line)))

/-- Head of a list is a whitespace character (`\s` at the next position,
used for the required `\s+` of the line patterns). -/
def headIsSpace : List Char → Bool
  | c :: _ => isSpaceChar c
  | [] => false

/-- The heading pattern `/^\s*(#{1,6})\s+(.*)/`: returns the heading level
and the captured text. A run of more than six `#` does not match. -/
def matchHeading (line : List Char) : Option (Nat × List Char) :=
  let t := line.dropWhile isSpaceChar
  let n := (t.takeWhile (· = '#')).length
  let r := t.dropWhile (· = '#')
  if 1 ≤ n ∧ n ≤ 6 ∧ headIsSpace r then
    some (n, r.dropWhile isSpaceChar)
  else
    none

/-- The horizontal-rule pattern `/^\s*(\-\-\-|\*\*\*|\_\_\_)\s*$/`. -/
def matchHr (line : List Char) : Bool :=
  let t := line.dropWhile isSpaceChar
  (t.take 3 = ['-', '-', '-'] || t.take 3 = ['*', '*', '*'] || t.take 3 = ['_', '_', '_'])
    && (t.drop 3).all isSpaceChar

/-- The unordered-list pattern `/^\s*[\-\*]\s+(.*)/`: returns the captured
item text. -/
def matchUl (line : List Char) : Option (List Char) :=
  match line.dropWhile isSpaceChar with
  | c :: rest =>
    if (c = '-' ∨ c = '*') ∧ headIsSpace rest then
      some (rest.dropWhile isSpaceChar)
    else
      none
  | [] => none

/-- The ordered-list pattern `/^\s*\d+\.\s+(.*)/`: returns the captured
item text. -/
def matchOl (line : List Char) : Option (List Char) :=
  let t := line.dropWhile isSpaceChar
  match t.takeWhile Char.isDigit, t.dropWhile Char.isDigit with
  | _ :: _, '.' :: r2 =>
    if headIsSpace r2 then some (r2.dropWhile isSpaceChar) else none
  | _, _ => none

/-- The two list kinds of the state machine (`inList` is `'ul'`, `'ol'`,
or `null` in the source). -/
inductive LK where
  | ul
  | ol
deriving DecidableEq

/-- Opening tag of a list kind. -/
def lkOpen : LK → List Char
  | LK.ul => "<ul>".toList
  | LK.ol => "<ol>".toList

/-- Closing tag of a list kind (`</${inList}>` in the source). -/
def lkClose : LK → List Char
  | LK.ul => "</ul>".toList
  | LK.ol => "</ol>".toList

/-- The mutable locals of the per-segment loop: `resultHtml`, `inList`,
`paragraphContent`. -/
structure BState where
  resultHtml : List Char
  inList : Option LK
  paragraphContent : List Char

/-- The `closeParagraph` helper: flush a nonempty paragraph buffer as a
`<p>…</p>` element. -/
def closeParagraph (st : BState) : BState :=
  if st.paragraphContent ≠ [] then
    { st with
        resultHtml := st.resultHtml ++ "<p>".toList ++ st.paragraphContent ++ "</p>".toList
        paragraphContent := [] }
  else st

/-- The `closeList` helper: emit the closing tag of an open list. -/
def closeList (st : BState) : BState :=
  match st.inList with
  | some k => { st with resultHtml := st.resultHtml ++ lkClose k, inList := none }
  | none => st

/-- Decimal digits of a natural number, for `<h${level}>`. -/
def natLit (n : Nat) : List Char := (Nat.repr n).toList

/-- One iteration of the `for (const line of lines)` loop: the five line
classifications in source order (heading, rule, unordered item, ordered
item, default). -/
def processLine (st : BState) (line : List Char) : BState :=
  match matchHeading line with
  | some (n, txt) =>
    let s1 := closeList (closeParagraph st)
    { s1 with
        resultHtml := s1.resultHtml ++ "<h".toList ++ natLit n ++ ['>'] ++
          processInline txt ++ "</h".toList ++ natLit n ++ ['>'] }
  | none =>
    if matchHr line then
      let s1 := closeList (closeParagraph st)
      { s1 with resultHtml := s1.resultHtml ++ "<hr>".toList }
    else
      match matchUl line with
      | some txt =>
        let s1 := closeParagraph st
        let s2 :=
          if s1.inList ≠ some LK.ul then
            let s1c := closeList s1
            { s1c with resultHtml := s1c.resultHtml ++ "<ul>".toList, inList := some LK.ul }
          else s1
        { s2 with
            resultHtml := s2.resultHtml ++ "<li>".toList ++ processInline txt ++ "</li>".toList }
      | none =>
        match matchOl line with
        | some txt =>
          let s1 := closeParagraph st
          let s2 :=
            if s1.inList ≠ some LK.ol then
              let s1c := closeList s1
              { s1c with resultHtml := s1c.resultHtml ++ "<ol>".toList, inList := some LK.ol }
            else s1
          { s2 with
              resultHtml := s2.resultHtml ++ "<li>".toList ++ processInline txt ++ "</li>".toList }
        | none =>
          let s1 := closeList st
          if jsTrim line ≠ [] then
            { s1 with
                paragraphContent := s1.paragraphContent ++
                  (if s1.paragraphContent ≠ [] then "<br>".toList else []) ++
                  processInline line }
          else
            closeParagraph s1

/-- Processing of one ordinary (non-code) segment: trim, split into lines,
run the line state machine, and flush at the end (`closeParagraph()` then
`closeList()` in the source). -/
def processOrdinary (block : List Char) : List Char :=
  (closeList (closeParagraph
    ((splitLines (jsTrim block)).foldl processLine ⟨[], none, []⟩))).resultHtml

/-- Index of the first occurrence of the three-character pattern `a b c` in
a list, if any. -/
def findSub3 (a b c : Char) : List Char → Option Nat
  | x :: y :: z :: r =>
    if x = a ∧ y = b ∧ z = c then some 0
    else (findSub3 a b c (y :: z :: r)).map (· + 1)
  | _ => none

theorem findSub3_some_le {a b c : Char} :
    ∀ {l : List Char} {p : Nat}, findSub3 a b c l = some p → p + 3 ≤ l.length := by
  intro l
  induction l with
  | nil => intro p h; simp [findSub3] at h
  | cons x t ih =>
    intro p h
    match t, h with
    | [], h => simp [findSub3] at h
    | [y], h => simp [findSub3] at h
    | y :: z :: r, h =>
      rw [findSub3] at h
      split at h
      · cases h
        simp
      · simp only [Option.map_eq_some'] at h
        obtain ⟨q, hq, rfl⟩ := h
        have := ih hq
        simp at this ⊢
        omega

/-- Fuel-driven recursion of `splitCodeFences`. -/
def splitCodeFencesGo : Nat → List Char → List (List Char)
  | 0, l => [l]
  | fuel + 1, l =>
    match findSub3 btick btick btick l with
    | none => [l]
    | some p =>
      match findSub3 btick btick btick (l.drop (p + 3)) with
      | none => [l]
      | some q =>
        l.take p :: ((l.drop p).take (q + 6)) :: splitCodeFencesGo fuel (l.drop (p + 3 + q + 3))

/-- JavaScript `text.split(/(```[\s\S]*?```)/)`: the lazy fenced-block
pattern matches from a first triple backtick to the next triple backtick at
least three positions later; because the separator is a capture group it is
kept in the output list, and empty pieces are kept as well. When no full
fenced block exists the whole input is a single piece. -/
def splitCodeFences (l : List Char) : List (List Char) :=
  splitCodeFencesGo l.length l

/-- The language match `block.match(/```(\w*)\n/)` attempted at the head of
the list: three backticks, a greedy word-character run, then a newline. -/
def fenceLangHere (l : List Char) : Option (List Char) :=
  if l.take 3 = [btick, btick, btick] then
    match (l.drop 3).dropWhile isWordChar with
    | c :: _ => if c = '\n' then some ((l.drop 3).takeWhile isWordChar) else none
    | [] => none
  else none

/-- The language match `block.match(/```(\w*)\n/)`: first position (left to
right) where the pattern matches, returning the captured word run. -/
def findLangMatch : List Char → Option (List Char)
  | [] => none
  | c :: rest =>
    match fenceLangHere (c :: rest) with
    | some r => some r
    | none => findLangMatch rest

/-- The first (non-global) replace `block.replace(/```\w*\n?/, '')`: at the
first triple backtick, remove it together with the following greedy word
run and one optional newline. -/
def replaceFirstOpenFence : List Char → List Char
  | [] => []
  | c :: rest =>
    if (c :: rest).take 3 = [btick, btick, btick] then
      match ((c :: rest).drop 3).dropWhile isWordChar with
      | '\n' :: r => r
      | other => other
    else
      c :: replaceFirstOpenFence rest

/-- The replace `code.replace(/```$/, '')`: strip a trailing triple
backtick. -/
def stripCloseFence (l : List Char) : List Char :=
  if l.drop (l.length - 3) = [btick, btick, btick] ∧ 3 ≤ l.length then
    l.take (l.length - 3)
  else l

/-- The code-block branch of `markdownToHtml`: language detection, fence
stripping, trimming, escaping, and the `<pre><code…>` wrapper. -/
def renderCodeBlock (block : List Char) : List Char :=
  let lang := (findLangMatch block).getD []
  let code := stripCloseFence (replaceFirstOpenFence block)
  let langClass := if lang ≠ [] then " class=\"language-".toList ++ lang ++ ['\"'] else []
  "<pre><code".toList ++ langClass ++ ['>'] ++ escapeHtmlL (jsTrim code) ++ "</code></pre>".toList

/-- The `markdownToHtml` function: split on fenced blocks, render each code
segment with `renderCodeBlock` and each ordinary segment with the line
state machine, and concatenate. -/
def markdownToHtml (text : List Char) : List Char :=
  ((splitCodeFences text).map fun block =>
    if block.take 3 = [btick, btick, btick] then renderCodeBlock block
    else processOrdinary block).flatten

/-- String-level wrapper of `markdownToHtml` (the spec calls it
`convert`). -/
def convert (s : String) : String :=
  ⟨markdownToHtml s.toList⟩

/-! Fuel irrelevance and unfolding equations for the fuel-driven scanners. -/

theorem spanReplGo_nil (d : Char) (opn cls : List Char) (f : Nat) :
    spanReplGo d opn cls f [] = [] := by
  cases f <;> rfl

theorem tail_dropWhile_length_le (p : Char → Bool) (t : List Char) :
    ((t.dropWhile p).tail).length ≤ t.length := by
  have h1 : ((t.dropWhile p).tail).length ≤ (t.dropWhile p).length :=
    List.length_tail _ ▸ Nat.sub_le _ _
  exact h1.trans (length_dropWhile_le p t)

theorem spanReplGo_fuel (d : Char) (opn cls : List Char) :
    ∀ (f1 f2 : Nat) (l : List Char), l.length ≤ f1 → l.length ≤ f2 →
      spanReplGo d opn cls f1 l = spanReplGo d opn cls f2 l := by
  intro f1
  induction f1 with
  | zero =>
    intro f2 l h1 _
    have : l = [] := List.eq_nil_of_length_eq_zero (Nat.le_zero.mp h1)
    subst this
    simp only [spanReplGo_nil]
  | succ f ih =>
    intro f2 l h1 h2
    cases l with
    | nil => simp only [spanReplGo_nil]
    | cons c t =>
      cases f2 with
      | zero => simp at h2
      | succ f2' =>
        simp only [List.length_cons, Nat.succ_le_succ_iff] at h1 h2
        show spanReplGo d opn cls (f + 1) (c :: t) = spanReplGo d opn cls (f2' + 1) (c :: t)
        by_cases hc : c = d ∧ t.takeWhile (· ≠ d) ≠ [] ∧ t.dropWhile (· ≠ d) ≠ []
        · simp only [spanReplGo, if_pos hc]
          have hlen := tail_dropWhile_length_le (fun x => decide (x ≠ d)) t
          rw [ih f2' _ (hlen.trans h1) (hlen.trans h2)]
        · simp only [spanReplGo, if_neg hc]
          rw [ih f2' _ h1 h2]

theorem spanRepl_nil (d : Char) (opn cls : List Char) : spanRepl d opn cls [] = [] := rfl

theorem spanRepl_cons_match {d c : Char} {t : List Char} (opn cls : List Char)
    (h : c = d ∧ t.takeWhile (· ≠ d) ≠ [] ∧ t.dropWhile (· ≠ d) ≠ []) :
    spanRepl d opn cls (c :: t) =
      opn ++ t.takeWhile (· ≠ d) ++ cls ++ spanRepl d opn cls (t.dropWhile (· ≠ d)).tail := by
  show spanReplGo d opn cls (t.length + 1) (c :: t) = _
  simp only [spanReplGo, if_pos h]
  rw [spanRepl]
  rw [spanReplGo_fuel d opn cls t.length ((t.dropWhile (· ≠ d)).tail).length _
    (tail_dropWhile_length_le (fun x => decide (x ≠ d)) t) (Nat.le_refl _)]

theorem spanRepl_cons_else {d c : Char} {t : List Char} (opn cls : List Char)
    (h : ¬(c = d ∧ t.takeWhile (· ≠ d) ≠ [] ∧ t.dropWhile (· ≠ d) ≠ [])) :
    spanRepl d opn cls (c :: t) = c :: spanRepl d opn cls t := by
  show spanReplGo d opn cls (t.length + 1) (c :: t) = _
  simp only [spanReplGo, if_neg h]
  rw [spanRepl]

theorem spanRepl2Go_nil (d : Char) (opn cls : List Char) (f : Nat) :
    spanRepl2Go d opn cls f [] = [] := by
  cases f <;> rfl

theorem spanRepl2Go_single (d : Char) (opn cls : List Char) (f : Nat) (c : Char) :
    spanRepl2Go d opn cls f [c] = [c] := by
  cases f <;> rfl

theorem drop2_dropWhile_length_le (p : Char → Bool) (t : List Char) :
    ((t.dropWhile p).drop 2).length ≤ t.length := by
  have h1 : ((t.dropWhile p).drop 2).length ≤ (t.dropWhile p).length :=
    List.length_drop 2 _ ▸ Nat.sub_le _ _
  exact h1.trans (length_dropWhile_le p t)

theorem spanRepl2Go_fuel (d : Char) (opn cls : List Char) :
    ∀ (f1 f2 : Nat) (l : List Char), l.length ≤ f1 → l.length ≤ f2 →
      spanRepl2Go d opn cls f1 l = spanRepl2Go d opn cls f2 l := by
  intro f1
  induction f1 with
  | zero =>
    intro f2 l h1 _
    have : l = [] := List.eq_nil_of_length_eq_zero (Nat.le_zero.mp h1)
    subst this
    simp only [spanRepl2Go_nil]
  | succ f ih =>
    intro f2 l h1 h2
    match l with
    | [] => simp only [spanRepl2Go_nil]
    | [c] => simp only [spanRepl2Go_single]
    | c1 :: c2 :: t =>
      match f2, h2 with
      | f2' + 1, h2 =>
        simp only [List.length_cons, Nat.succ_le_succ_iff] at h1 h2
        show spanRepl2Go d opn cls (f + 1) (c1 :: c2 :: t) =
          spanRepl2Go d opn cls (f2' + 1) (c1 :: c2 :: t)
        by_cases hc : c1 = d ∧ c2 = d ∧ t.takeWhile (· ≠ d) ≠ [] ∧
            (t.dropWhile (· ≠ d)).take 2 = [d, d]
        · simp only [spanRepl2Go, if_pos hc]
          have hlen := drop2_dropWhile_length_le (fun x => decide (x ≠ d)) t
          have ht1 : t.length ≤ f := by omega
          have ht2 : t.length ≤ f2' := by omega
          rw [ih f2' _ (hlen.trans ht1) (hlen.trans ht2)]
        · simp only [spanRepl2Go, if_neg hc]
          have hc1 : (c2 :: t).length ≤ f := by simp; omega
          have hc2 : (c2 :: t).length ≤ f2' := by simp; omega
          rw [ih f2' _ hc1 hc2]

theorem spanRepl2_nil (d : Char) (opn cls : List Char) : spanRepl2 d opn cls [] = [] := rfl

theorem spanRepl2_single (d : Char) (opn cls : List Char) (c : Char) :
    spanRepl2 d opn cls [c] = [c] := rfl

theorem spanRepl2_cons_match {d c1 c2 : Char} {t : List Char} (opn cls : List Char)
    (h : c1 = d ∧ c2 = d ∧ t.takeWhile (· ≠ d) ≠ [] ∧ (t.dropWhile (· ≠ d)).take 2 = [d, d]) :
    spanRepl2 d opn cls (c1 :: c2 :: t) =
      opn ++ t.takeWhile (· ≠ d) ++ cls ++ spanRepl2 d opn cls ((t.dropWhile (· ≠ d)).drop 2) := by
  show spanRepl2Go d opn cls (t.length + 2) (c1 :: c2 :: t) = _
  simp only [spanRepl2Go, if_pos h]
  rw [spanRepl2]
  rw [spanRepl2Go_fuel d opn cls (t.length + 1) ((t.dropWhile (· ≠ d)).drop 2).length _
    ((drop2_dropWhile_length_le (fun x => decide (x ≠ d)) t).trans (Nat.le_succ _))
    (Nat.le_refl _)]

theorem spanRepl2_cons_else {d c1 c2 : Char} {t : List Char} (opn cls : List Char)
    (h : ¬(c1 = d ∧ c2 = d ∧ t.takeWhile (· ≠ d) ≠ [] ∧ (t.dropWhile (· ≠ d)).take 2 = [d, d])) :
    spanRepl2 d opn cls (c1 :: c2 :: t) = c1 :: spanRepl2 d opn cls (c2 :: t) := by
  show spanRepl2Go d opn cls (t.length + 2) (c1 :: c2 :: t) = _
  simp only [spanRepl2Go, if_neg h]
  rw [spanRepl2, List.length_cons]

theorem splitCodeFencesGo_fuel :
    ∀ (f1 f2 : Nat) (l : List Char), l.length ≤ f1 → l.length ≤ f2 →
      splitCodeFencesGo f1 l = splitCodeFencesGo f2 l := by
  intro f1
  induction f1 with
  | zero =>
    intro f2 l h1 _
    have : l = [] := List.eq_nil_of_length_eq_zero (Nat.le_zero.mp h1)
    subst this
    cases f2 with
    | zero => rfl
    | succ f2' => rfl
  | succ f ih =>
    intro f2 l h1 h2
    cases hf : findSub3 btick btick btick l with
    | none =>
      cases f2 with
      | zero =>
        have : l = [] := List.eq_nil_of_length_eq_zero (Nat.le_zero.mp h2)
        subst this
        rfl
      | succ f2' => simp only [splitCodeFencesGo, hf]
    | some p =>
      have hp := findSub3_some_le hf
      cases hf2 : findSub3 btick btick btick (l.drop (p + 3)) with
      | none =>
        cases f2 with
        | zero => omega
        | succ f2' => simp only [splitCodeFencesGo, hf, hf2]
      | some q =>
        cases f2 with
        | zero => omega
        | succ f2' =>
          simp only [splitCodeFencesGo, hf, hf2]
          have hlen : (l.drop (p + 3 + q + 3)).length ≤ l.length - 1 := by
            rw [List.length_drop]
            omega
          have hle1 : (l.drop (p + 3 + q + 3)).length ≤ f := by omega
          have hle2 : (l.drop (p + 3 + q + 3)).length ≤ f2' := by omega
          rw [ih f2' _ hle1 hle2]

theorem splitCodeFences_no_fence {l : List Char}
    (h : findSub3 btick btick btick l = none) : splitCodeFences l = [l] := by
  rw [splitCodeFences]
  cases hl : l.length with
  | zero => rfl
  | succ n => simp only [splitCodeFencesGo, h]

theorem splitCodeFences_no_close {l : List Char} {p : Nat}
    (h1 : findSub3 btick btick btick l = some p)
    (h2 : findSub3 btick btick btick (l.drop (p + 3)) = none) :
    splitCodeFences l = [l] := by
  have hp := findSub3_some_le h1
  rw [splitCodeFences]
  cases hl : l.length with
  | zero => rfl
  | succ n => simp only [splitCodeFencesGo, h1, h2]

theorem splitCodeFences_cons {l : List Char} {p q : Nat}
    (h1 : findSub3 btick btick btick l = some p)
    (h2 : findSub3 btick btick btick (l.drop (p + 3)) = some q) :
    splitCodeFences l =
      l.take p :: ((l.drop p).take (q + 6)) :: splitCodeFences (l.drop (p + 3 + q + 3)) := by
  have hp := findSub3_some_le h1
  rw [splitCodeFences]
  cases hl : l.length with
  | zero => omega
  | succ n =>
    simp only [splitCodeFencesGo, h1, h2, splitCodeFences]
    have hlen : (l.drop (p + 3 + q + 3)).length ≤ n := by
      rw [List.length_drop]
      omega
    rw [splitCodeFencesGo_fuel n (l.drop (p + 3 + q + 3)).length _ hlen (Nat.le_refl _)]

/-! The escaper, characterwise. -/

/-- Characterwise escape table, following the spec's wording for the
Escaper: the five characters map to their entities, everything else is
unchanged. -/
def escHtmlCharSpec (c : Char) : List Char :=
  if c = '&' then "&amp;".toList
  else if c = '<' then "&lt;".toList
  else if c = '>' then "&gt;".toList
  else if c = '"' then "&quot;".toList
  else if c = apos then "&#039;".toList
  else [c]

theorem replaceChar_append (d : Char) (r : List Char) (x y : List Char) :
    replaceChar d r (x ++ y) = replaceChar d r x ++ replaceChar d r y := by
  induction x with
  | nil => rfl
  | cons c t ih => simp [replaceChar, ih]

theorem escapeHtmlL_append (x y : List Char) :
    escapeHtmlL (x ++ y) = escapeHtmlL x ++ escapeHtmlL y := by
  simp only [escapeHtmlL, replaceChar_append]

theorem escapeHtmlL_singleton (c : Char) : escapeHtmlL [c] = escHtmlCharSpec c := by
  by_cases h1 : c = '&'
  · subst h1; rfl
  by_cases h2 : c = '<'
  · subst h2; rfl
  by_cases h3 : c = '>'
  · subst h3; rfl
  by_cases h4 : c = '"'
  · subst h4; rfl
  by_cases h5 : c = apos
  · subst h5; rfl
  simp [escapeHtmlL, replaceChar, escHtmlCharSpec, h1, h2, h3, h4, h5]

theorem escapeHtmlL_cons (c : Char) (t : List Char) :
    escapeHtmlL (c :: t) = escHtmlCharSpec c ++ escapeHtmlL t := by
  have h : escapeHtmlL ([c] ++ t) = escapeHtmlL [c] ++ escapeHtmlL t := escapeHtmlL_append [c] t
  simpa [escapeHtmlL_singleton] using h

theorem escapeHtmlL_eq_flatten (s : List Char) :
    escapeHtmlL s = (s.map escHtmlCharSpec).flatten := by
  induction s with
  | nil => rfl
  | cons c t ih => simp [escapeHtmlL_cons, ih]

/-! Rendering of one segment inside the whole output. -/

/-- How `markdownToHtml` renders a single segment. -/
def renderSegment (block : List Char) : List Char :=
  if block.take 3 = [btick, btick, btick] then renderCodeBlock block
  else processOrdinary block

theorem markdownToHtml_eq_flatten (s : List Char) :
    markdownToHtml s = ((splitCodeFences s).map renderSegment).flatten := rfl

theorem segment_contribution {s b : List Char} (hb : b ∈ splitCodeFences s) :
    ∃ pre post, markdownToHtml s = pre ++ renderSegment b ++ post := by
  obtain ⟨u, v, huv⟩ := List.append_of_mem hb
  refine ⟨((u.map renderSegment).flatten), ((v.map renderSegment).flatten), ?_⟩
  rw [markdownToHtml_eq_flatten, huv]
  simp

/-- C3 (counterexample): conversion is not idempotent; converting the
output of `convert "a"` escapes the emitted paragraph tags again. -/
theorem convert_convert_a_ne : convert (convert "a") ≠ convert "a" := by decide

/-- C3 (amended): `markdownToHtml` is a deterministic total text transform,
but it is not idempotent: applying it to its own output re-escapes the
emitted markup, as the input `"a"` shows. -/
theorem convert_not_idempotent :
    convert "a" = "<p>a</p>" ∧
    convert (convert "a") = "<p>&lt;p&gt;a&lt;/p&gt;</p>" ∧
    convert (convert "a") ≠ convert "a" :=
  ⟨rfl, rfl, by decide⟩

/-- C6: consecutive list items of one kind are grouped into a single
`<ul>`/`<ol>`; the digit value of an ordered item is not preserved (the
items `1.` and `5.` render identically, with no start attribute). -/
theorem convert_list_grouping :
    convert "- a\n- b" = "<ul><li>a</li><li>b</li></ul>" ∧
    convert "1. a\n2. b" = "<ol><li>a</li><li>b</li></ol>" ∧
    convert "1. a\n5. b" = "<ol><li>a</li><li>b</li></ol>" :=
  ⟨rfl, rfl, rfl⟩

/-- C7: consecutive non-blank default lines join one paragraph separated by
`<br>`; a blank line ends the current paragraph and starts a new one. -/
theorem convert_paragraph_joining :
    convert "line1\nline2" = "<p>line1<br>line2</p>" ∧
    convert "para1\n\npara2" = "<p>para1</p><p>para2</p>" :=
  ⟨rfl, rfl⟩

/-- C8: the converter is total over all inputs by construction (every
definition of the embedding is a total function; no failure case exists);
the empty string yields the empty output, and a malformed marker such as
the unmatched `*` of `"*oops"` degrades to literal escaped text inside a
paragraph with no character dropped. -/
theorem convert_total_degrades :
    convert "" = "" ∧
    convert "*oops" = "<p>*oops</p>" :=
  ⟨rfl, rfl⟩

/-- C10: inline code spans do not protect emphasis markers: the bold and
italic rewrites run before the inline-code rewrite, so a single-asterisk
span inside backticks is rewritten to an `<em>` inside the `<code>`. -/
theorem inline_code_not_protecting :
    processInline "`*x*`".toList = "<code><em>x</em></code>".toList ∧
    convert "`*x*`" = "<p><code><em>x</em></code></p>" :=
  ⟨by decide, rfl⟩

/-- C2: the concrete fenced `js` example renders as a `pre`/`code` block
with the `language-js` class hint and the escaped literal body, and in
general every code segment of the segmentation contributes exactly a
`pre`/`code` wrapper around the escaped (never re-interpreted) trimmed
fence content. -/
theorem code_block_escaped_verbatim :
    convert "```js\nlet x = 1 < 2;\n```" =
      "<pre><code class=\"language-js\">let x = 1 &lt; 2;</code></pre>" ∧
    ∀ s b : List Char, b ∈ splitCodeFences s → b.take 3 = [btick, btick, btick] →
      ∃ pre post, markdownToHtml s = pre ++ renderCodeBlock b ++ post ∧
        renderCodeBlock b =
          "<pre><code".toList ++
            (if (findLangMatch b).getD [] ≠ [] then
              " class=\"language-".toList ++ (findLangMatch b).getD [] ++ ['\"'] else []) ++
            ['>'] ++ escapeHtmlL (jsTrim (stripCloseFence (replaceFirstOpenFence b))) ++
            "</code></pre>".toList := by
  refine ⟨rfl, ?_⟩
  intro s b hb hfence
  obtain ⟨pre, post, h⟩ := segment_contribution hb
  rw [renderSegment, if_pos hfence] at h
  exact ⟨pre, post, h, rfl⟩

theorem code_block_escaped_verbatim_witness :
    ∃ pre post, markdownToHtml "a\n```js\nx\n```".toList =
        pre ++ renderCodeBlock "```js\nx\n```".toList ++ post ∧
      renderCodeBlock "```js\nx\n```".toList =
        "<pre><code".toList ++
          (if (findLangMatch "```js\nx\n```".toList).getD [] ≠ [] then
            " class=\"language-".toList ++ (findLangMatch "```js\nx\n```".toList).getD [] ++
              ['\"'] else []) ++
          ['>'] ++
          escapeHtmlL (jsTrim (stripCloseFence (replaceFirstOpenFence "```js\nx\n```".toList))) ++
          "</code></pre>".toList :=
  code_block_escaped_verbatim.2 "a\n```js\nx\n```".toList "```js\nx\n```".toList
    (by decide) (by decide)

theorem take3_fence_findSub3 {l : List Char}
    (h : l.take 3 = [btick, btick, btick]) :
    findSub3 btick btick btick l = some 0 := by
  match l, h with
  | x :: y :: z :: r, h =>
    simp only [List.take, List.cons.injEq] at h
    obtain ⟨hx, hy, hz, -⟩ := h
    simp [findSub3, hx, hy, hz]

/-- C9: unterminated-fence handling is position-dependent. If the input
starts with a triple backtick and no triple backtick occurs from position 3
on, the whole input is rendered as one escaped code block; if the first
triple backtick sits at a positive position and no triple backtick occurs
after it, the whole input (fence line included) is processed as ordinary
block content instead. -/
theorem unterminated_fence_position_dependent :
    (∀ s : List Char, s.take 3 = [btick, btick, btick] →
      findSub3 btick btick btick (s.drop 3) = none →
      markdownToHtml s = renderCodeBlock s) ∧
    (∀ (s : List Char) (p : Nat), findSub3 btick btick btick s = some p → 0 < p →
      findSub3 btick btick btick (s.drop (p + 3)) = none →
      markdownToHtml s = processOrdinary s) := by
  constructor
  · intro s hfence hnone
    have h0 : findSub3 btick btick btick s = some 0 := take3_fence_findSub3 hfence
    have hsingle : splitCodeFences s = [s] := splitCodeFences_no_close h0 hnone
    rw [markdownToHtml_eq_flatten, hsingle]
    simp [renderSegment, if_pos hfence]
  · intro s p hp hpos hnone
    have hsingle : splitCodeFences s = [s] := splitCodeFences_no_close hp hnone
    have hfence : ¬(s.take 3 = [btick, btick, btick]) := by
      intro hc
      rw [take3_fence_findSub3 hc] at hp
      cases hp
      omega
    rw [markdownToHtml_eq_flatten, hsingle]
    simp [renderSegment, if_neg hfence]

theorem unterminated_fence_witness :
    markdownToHtml "```js\ncode".toList = renderCodeBlock "```js\ncode".toList ∧
    markdownToHtml "x\n```js\ncode".toList = processOrdinary "x\n```js\ncode".toList := by
  constructor
  · exact unterminated_fence_position_dependent.1 "```js\ncode".toList (by decide) (by decide)
  · exact unterminated_fence_position_dependent.2 "x\n```js\ncode".toList 2
      (by decide) (by decide) (by decide)

/-! Safe chunk structure of the output: concatenation of whole emitted
tags and escaped text characters. -/

/-- A character that may appear as escaped text: not one of the four
HTML-active characters `<`, `>`, `"`, `'` (escaping leaves no such
character outside a tag). -/
def textSafe (c : Char) : Prop := c ≠ '<' ∧ c ≠ '>' ∧ c ≠ '"' ∧ c ≠ apos

instance (c : Char) : Decidable (textSafe c) := by
  unfold textSafe
  infer_instance

/-- `SC T l`: the list `l` is a concatenation of single safe text
characters and whole nonempty tags drawn from the set `T`. -/
inductive SC (T : List Char → Prop) : List Char → Prop where
  | nil : SC T []
  | text (c : Char) (l : List Char) : textSafe c → SC T l → SC T (c :: l)
  | tag (t l : List Char) : T t → t ≠ [] → SC T l → SC T (t ++ l)

theorem SC_append {T : List Char → Prop} {a b : List Char}
    (ha : SC T a) (hb : SC T b) : SC T (a ++ b) := by
  induction ha with
  | nil => exact hb
  | text c l hc _ ih => exact SC.text c _ hc ih
  | tag t l ht hne _ ih =>
    rw [List.append_assoc]
    exact SC.tag t _ ht hne ih

theorem SC_mono {T T' : List Char → Prop} (hsub : ∀ t, T t → T' t) {l : List Char}
    (h : SC T l) : SC T' l := by
  induction h with
  | nil => exact SC.nil
  | text c l hc _ ih => exact SC.text c _ hc ih
  | tag t l ht hne _ ih => exact SC.tag t _ (hsub t ht) hne ih

theorem SC_of_textSafe {T : List Char → Prop} {l : List Char}
    (h : ∀ c ∈ l, textSafe c) : SC T l := by
  induction l with
  | nil => exact SC.nil
  | cons c t ih =>
    exact SC.text c _ (h c (List.mem_cons_self c t)) (ih fun x hx => h x (List.mem_cons_of_mem c hx))

theorem SC_split {T : List Char → Prop} {d : Char}
    (hd : ∀ t, T t → d ∉ t) :
    ∀ {l : List Char}, SC T l → ∀ a b, l = a ++ d :: b → SC T a ∧ SC T b := by
  intro l hsc
  induction hsc with
  | nil =>
    intro a b hab
    exact absurd hab.symm (by simp)
  | text c l' hc hsc' ih =>
    intro a b hab
    cases a with
    | nil =>
      simp only [List.nil_append, List.cons.injEq] at hab
      exact ⟨SC.nil, hab.2 ▸ hsc'⟩
    | cons a0 a' =>
      simp only [List.cons_append, List.cons.injEq] at hab
      obtain ⟨rfl, hab'⟩ := hab
      obtain ⟨h1, h2⟩ := ih a' b hab'
      exact ⟨SC.text c _ hc h1, h2⟩
  | tag t0 l' ht hne hsc' ih =>
    intro a b hab
    rcases List.append_eq_append_iff.mp hab with ⟨a', ha, hl'⟩ | ⟨c', hc', hdb⟩
    · obtain ⟨h1, h2⟩ := ih a' b hl'
      exact ⟨ha ▸ SC.tag t0 a' ht hne h1, h2⟩
    · cases c' with
      | nil =>
        simp only [List.append_nil] at hc'
        simp only [List.nil_append] at hdb
        obtain ⟨h1, h2⟩ := ih [] b hdb.symm
        have : SC T t0 := by
          have := SC.tag t0 [] ht hne SC.nil
          simpa using this
        exact ⟨hc' ▸ this, h2⟩
      | cons e c'' =>
        simp only [List.cons_append, List.cons.injEq] at hdb
        obtain ⟨rfl, -⟩ := hdb
        exfalso
        exact hd t0 ht (hc' ▸ List.mem_append_right a (List.mem_cons_self _ _))

theorem dropWhile_ne_head {d : Char} {t : List Char}
    (h : t.dropWhile (· ≠ d) ≠ []) :
    ∃ r, t.dropWhile (· ≠ d) = d :: r := by
  induction t with
  | nil => simp at h
  | cons c t' ih =>
    by_cases hc : c = d
    · subst hc
      refine ⟨t', ?_⟩
      rw [List.dropWhile_cons]
      simp
    · have hcd : (decide (c ≠ d)) = true := decide_eq_true hc
      rw [List.dropWhile_cons] at h ⊢
      rw [if_pos hcd] at h ⊢
      exact ih h

theorem spanRepl_hom {d : Char} (opn cls : List Char) (pfx rest : List Char)
    (hp : ∀ c ∈ pfx, c ≠ d) :
    spanRepl d opn cls (pfx ++ rest) = pfx ++ spanRepl d opn cls rest := by
  induction pfx with
  | nil => rfl
  | cons c p ih =>
    have hcd : c ≠ d := hp c (List.mem_cons_self _ _)
    rw [List.cons_append, spanRepl_cons_else opn cls (fun hcon => hcd hcon.1)]
    rw [ih (fun x hx => hp x (List.mem_cons_of_mem _ hx))]
    rfl

theorem spanRepl2_hom {d : Char} (opn cls : List Char) (pfx rest : List Char)
    (hp : ∀ c ∈ pfx, c ≠ d) :
    spanRepl2 d opn cls (pfx ++ rest) = pfx ++ spanRepl2 d opn cls rest := by
  induction pfx with
  | nil => rfl
  | cons c p ih =>
    have hcd : c ≠ d := hp c (List.mem_cons_self _ _)
    have ihr := ih (fun x hx => hp x (List.mem_cons_of_mem _ hx))
    cases hpr : p ++ rest with
    | nil =>
      have hp0 : p = [] := by cases p with | nil => rfl | cons _ _ => simp at hpr
      have hr0 : rest = [] := by subst hp0; simpa using hpr
      subst hp0; subst hr0
      rfl
    | cons c2 t =>
      rw [List.cons_append, hpr, spanRepl2_cons_else opn cls (fun hcon => hcd hcon.1), ← hpr, ihr]
      rfl

theorem SC_spanRepl_aux {T T' : List Char → Prop} {d : Char} {opn cls : List Char}
    (hsub : ∀ t, T t → T' t) (hopn : T' opn) (hcls : T' cls)
    (hopn_ne : opn ≠ []) (hcls_ne : cls ≠ [])
    (hdT : ∀ t, T t → d ∉ t) :
    ∀ (n : Nat) (l : List Char), l.length ≤ n → SC T l → SC T' (spanRepl d opn cls l) := by
  intro n
  induction n with
  | zero =>
    intro l hl hsc
    have : l = [] := List.eq_nil_of_length_eq_zero (Nat.le_zero.mp hl)
    subst this
    rw [spanRepl_nil]
    exact SC.nil
  | succ n ih =>
    intro l hl hsc
    cases hsc with
    | nil =>
      rw [spanRepl_nil]
      exact SC.nil
    | tag t0 l0 ht0 hne0 hsc0 =>
      rw [spanRepl_hom opn cls t0 l0 (fun c hc hcd => hdT t0 ht0 (by subst hcd; exact hc))]
      refine SC.tag t0 _ (hsub t0 ht0) hne0 (ih l0 ?_ hsc0)
      have h1 : 1 ≤ t0.length := List.length_pos.mpr hne0
      rw [List.length_append] at hl
      omega
    | text c l' htext hsc' =>
      by_cases hcond : c = d ∧ l'.takeWhile (· ≠ d) ≠ [] ∧ l'.dropWhile (· ≠ d) ≠ []
      · rw [spanRepl_cons_match opn cls hcond]
        obtain ⟨hcd, hrun, hrest⟩ := hcond
        obtain ⟨r, hr⟩ := dropWhile_ne_head hrest
        have hdecomp : l' = l'.takeWhile (· ≠ d) ++ d :: r := by
          conv_lhs => rw [← List.takeWhile_append_dropWhile (fun x => decide (x ≠ d)) l']
          rw [hr]
        obtain ⟨hruns, htails⟩ := SC_split hdT hsc' _ r hdecomp
        have hrtail : (l'.dropWhile (· ≠ d)).tail = r := by rw [hr]; rfl
        rw [hrtail]
        have hlen : r.length ≤ n := by
          have hdl : (l'.dropWhile (fun x => decide (x ≠ d))).length ≤ l'.length :=
            length_dropWhile_le _ _
          rw [hr, List.length_cons] at hdl
          rw [List.length_cons] at hl
          omega
        rw [List.append_assoc, List.append_assoc]
        refine SC.tag opn _ hopn hopn_ne ?_
        exact SC_append (SC_mono hsub hruns) (SC.tag cls _ hcls hcls_ne (ih r hlen htails))
      · rw [spanRepl_cons_else opn cls hcond]
        refine SC.text c _ htext (ih l' ?_ hsc')
        rw [List.length_cons] at hl
        omega

theorem SC_spanRepl2_aux {T T' : List Char → Prop} {d : Char} {opn cls : List Char}
    (hsub : ∀ t, T t → T' t) (hopn : T' opn) (hcls : T' cls)
    (hopn_ne : opn ≠ []) (hcls_ne : cls ≠ [])
    (hdT : ∀ t, T t → d ∉ t) :
    ∀ (n : Nat) (l : List Char), l.length ≤ n → SC T l → SC T' (spanRepl2 d opn cls l) := by
  intro n
  induction n with
  | zero =>
    intro l hl hsc
    have : l = [] := List.eq_nil_of_length_eq_zero (Nat.le_zero.mp hl)
    subst this
    rw [spanRepl2_nil]
    exact SC.nil
  | succ n ih =>
    intro l hl hsc
    cases hsc with
    | nil =>
      rw [spanRepl2_nil]
      exact SC.nil
    | tag t0 l0 ht0 hne0 hsc0 =>
      rw [spanRepl2_hom opn cls t0 l0 (fun c hc hcd => hdT t0 ht0 (by subst hcd; exact hc))]
      refine SC.tag t0 _ (hsub t0 ht0) hne0 (ih l0 ?_ hsc0)
      have h1 : 1 ≤ t0.length := List.length_pos.mpr hne0
      rw [List.length_append] at hl
      omega
    | text c l' htext hsc' =>
      cases l' with
      | nil =>
        rw [spanRepl2_single]
        exact SC.text c _ htext SC.nil
      | cons c2 t =>
        by_cases hcond : c = d ∧ c2 = d ∧ t.takeWhile (· ≠ d) ≠ [] ∧
            (t.dropWhile (· ≠ d)).take 2 = [d, d]
        · rw [spanRepl2_cons_match opn cls hcond]
          obtain ⟨hc1, hc2, hrun, htake⟩ := hcond
          have hrest : ∃ r, t.dropWhile (· ≠ d) = d :: d :: r := by
            cases hr : t.dropWhile (· ≠ d) with
            | nil => rw [hr] at htake; simp at htake
            | cons x xs =>
              cases xs with
              | nil => rw [hr] at htake; simp at htake
              | cons y ys =>
                rw [hr] at htake
                simp [List.take] at htake
                obtain ⟨hx, hy⟩ := htake
                subst hx
                subst hy
                exact ⟨ys, rfl⟩
          obtain ⟨r, hr⟩ := hrest
          have hdecomp : t = t.takeWhile (· ≠ d) ++ d :: (d :: r) := by
            conv_lhs => rw [← List.takeWhile_append_dropWhile (fun x => decide (x ≠ d)) t]
            rw [hr]
          have hsplit1 : SC T [] ∧ SC T t := SC_split hdT hsc' [] t (by rw [hc2]; rfl)
          obtain ⟨-, hsct⟩ := hsplit1
          obtain ⟨hruns, hsc2⟩ := SC_split hdT hsct _ (d :: r) hdecomp
          obtain ⟨-, hscr⟩ := SC_split hdT hsc2 [] r rfl
          have hdrop2 : (t.dropWhile (· ≠ d)).drop 2 = r := by rw [hr]; rfl
          rw [hdrop2]
          have hlen : r.length ≤ n := by
            have hdl : (t.dropWhile (fun x => decide (x ≠ d))).length ≤ t.length :=
              length_dropWhile_le _ _
            rw [hr, List.length_cons, List.length_cons] at hdl
            rw [List.length_cons, List.length_cons] at hl
            omega
          rw [List.append_assoc, List.append_assoc]
          refine SC.tag opn _ hopn hopn_ne ?_
          exact SC_append (SC_mono hsub hruns) (SC.tag cls _ hcls hcls_ne (ih r hlen hscr))
        · rw [spanRepl2_cons_else opn cls hcond]
          refine SC.text c _ htext (ih (c2 :: t) ?_ hsc')
          rw [List.length_cons] at hl
          omega

theorem escHtmlCharSpec_textSafe (c0 : Char) : ∀ c ∈ escHtmlCharSpec c0, textSafe c := by
  intro c hc
  unfold escHtmlCharSpec at hc
  split_ifs at hc with h1 h2 h3 h4 h5
  · simp at hc
    rcases hc with rfl | rfl | rfl | rfl | rfl <;> decide
  · simp at hc
    rcases hc with rfl | rfl | rfl | rfl <;> decide
  · simp at hc
    rcases hc with rfl | rfl | rfl | rfl <;> decide
  · simp at hc
    rcases hc with rfl | rfl | rfl | rfl | rfl | rfl <;> decide
  · simp at hc
    rcases hc with rfl | rfl | rfl | rfl | rfl | rfl | rfl <;> decide
  · simp at hc
    subst hc
    exact ⟨h2, h3, h4, h5⟩

theorem escapeHtmlL_textSafe (s : List Char) : ∀ c ∈ escapeHtmlL s, textSafe c := by
  intro c hc
  rw [escapeHtmlL_eq_flatten, List.mem_flatten] at hc
  obtain ⟨l, hl, hcl⟩ := hc
  rw [List.mem_map] at hl
  obtain ⟨c0, -, rfl⟩ := hl
  exact escHtmlCharSpec_textSafe c0 c hcl

/-- The inline tags that `processInline` can emit. -/
def inlineTags (t : List Char) : Prop :=
  t = strongO ∨ t = strongC ∨ t = emO ∨ t = emC ∨ t = codeO ∨ t = codeC

theorem inlineTags_no_star : ∀ t, inlineTags t → '*' ∉ t := by
  intro t ht
  rcases ht with rfl | rfl | rfl | rfl | rfl | rfl <;> decide

theorem inlineTags_no_btick : ∀ t, inlineTags t → btick ∉ t := by
  intro t ht
  rcases ht with rfl | rfl | rfl | rfl | rfl | rfl <;> decide

theorem SC_processInline (line : List Char) : SC inlineTags (processInline line) := by
  have h0 : SC inlineTags (escapeHtmlL line) := SC_of_textSafe (escapeHtmlL_textSafe line)
  have hb : SC inlineTags (spanRepl2 '*' strongO strongC (escapeHtmlL line)) :=
    SC_spanRepl2_aux (fun _ h => h) (Or.inl rfl) (Or.inr (Or.inl rfl)) (by decide) (by decide)
      inlineTags_no_star _ _ (Nat.le_refl _) h0
  have hi : SC inlineTags (spanRepl '*' emO emC (spanRepl2 '*' strongO strongC (escapeHtmlL line))) :=
    SC_spanRepl_aux (fun _ h => h) (Or.inr (Or.inr (Or.inl rfl))) (Or.inr (Or.inr (Or.inr (Or.inl rfl))))
      (by decide) (by decide) inlineTags_no_star _ _ (Nat.le_refl _) hb
  exact SC_spanRepl_aux (fun _ h => h) (Or.inr (Or.inr (Or.inr (Or.inr (Or.inl rfl)))))
    (Or.inr (Or.inr (Or.inr (Or.inr (Or.inr rfl))))) (by decide) (by decide)
    inlineTags_no_btick _ _ (Nat.le_refl _) hi

/-! Well-formed block structure of the emitted HTML. -/

/-- Tags that can occur inside paragraph content: the inline tags plus the
`<br>` separator the paragraph accumulator inserts. -/
def paraTags (t : List Char) : Prop := inlineTags t ∨ t = "<br>".toList

/-- Shape of the language class attribute of a rendered code block:
absent, or built from a nonempty word-character run. -/
def ClsOk (cls : List Char) : Prop :=
  cls = [] ∨ ∃ lang, lang ≠ [] ∧ (∀ c ∈ lang, isWordChar c = true) ∧
    cls = " class=\"language-".toList ++ lang ++ ['\"']

/-- A well-formed run of `<li>…</li>` items with inline content. -/
inductive LiSeq : List Char → Prop where
  | nil : LiSeq []
  | cons (t r : List Char) : SC inlineTags t → LiSeq r →
      LiSeq ("<li>".toList ++ t ++ "</li>".toList ++ r)

/-- A single well-formed emitted block element. -/
inductive WFItem : List Char → Prop where
  | hd (n : Nat) (t : List Char) : 1 ≤ n → n ≤ 6 → SC inlineTags t →
      WFItem ("<h".toList ++ natLit n ++ ['>'] ++ t ++ "</h".toList ++ natLit n ++ ['>'])
  | hrule : WFItem "<hr>".toList
  | para (t : List Char) : SC paraTags t → WFItem ("<p>".toList ++ t ++ "</p>".toList)
  | list (k : LK) (items : List Char) : LiSeq items →
      WFItem (lkOpen k ++ items ++ lkClose k)
  | pre (cls body : List Char) : ClsOk cls → (∀ c ∈ body, textSafe c) →
      WFItem ("<pre><code".toList ++ cls ++ ['>'] ++ body ++ "</code></pre>".toList)

/-- A well-formed output: a concatenation of well-formed block elements. -/
def WFSeq (l : List Char) : Prop :=
  ∃ parts : List (List Char), (∀ p ∈ parts, WFItem p) ∧ l = parts.flatten

theorem WFSeq_nil : WFSeq [] := ⟨[], by simp, rfl⟩

theorem WFSeq_append {a b : List Char} (ha : WFSeq a) (hb : WFSeq b) : WFSeq (a ++ b) := by
  obtain ⟨pa, hpa, rfl⟩ := ha
  obtain ⟨pb, hpb, rfl⟩ := hb
  refine ⟨pa ++ pb, ?_, ?_⟩
  · intro p hp
    rcases List.mem_append.mp hp with h | h
    · exact hpa p h
    · exact hpb p h
  · rw [List.flatten_append]

theorem WFSeq_item {x : List Char} (hx : WFItem x) : WFSeq x :=
  ⟨[x], by simpa using hx, by simp⟩

theorem WFSeq_snoc {a x : List Char} (ha : WFSeq a) (hx : WFItem x) : WFSeq (a ++ x) :=
  WFSeq_append ha (WFSeq_item hx)

theorem LiSeq_snoc {r t : List Char} (hr : LiSeq r) (ht : SC inlineTags t) :
    LiSeq (r ++ ("<li>".toList ++ t ++ "</li>".toList)) := by
  induction hr with
  | nil =>
    rw [List.nil_append]
    have := LiSeq.cons t [] ht LiSeq.nil
    simpa using this
  | cons t0 r0 ht0 _ ih =>
    have := LiSeq.cons t0 _ ht0 ih
    simpa [List.append_assoc] using this

/-- Shape of `resultHtml` as a function of the open-list state: with no
open list it is a sequence of complete elements; with an open list of kind
`k` it is such a sequence followed by the opening tag of `k` and a run of
complete `<li>` items. -/
def ResOk (res : List Char) : Option LK → Prop
  | none => WFSeq res
  | some k => ∃ (parts : List (List Char)) (lis : List Char),
      (∀ p ∈ parts, WFItem p) ∧ LiSeq lis ∧ res = parts.flatten ++ lkOpen k ++ lis

/-- Loop invariant of the line state machine: the paragraph buffer holds
inline/br content, at most one of the paragraph buffer and the open list is
active, and `resultHtml` has the shape dictated by the open-list state. -/
def MInv (st : BState) : Prop :=
  SC paraTags st.paragraphContent ∧
  (st.paragraphContent ≠ [] → st.inList = none) ∧
  ResOk st.resultHtml st.inList

theorem closeParagraph_inv {st : BState} (h : MInv st) :
    MInv (closeParagraph st) ∧ (closeParagraph st).paragraphContent = [] ∧
      (closeParagraph st).inList = st.inList := by
  obtain ⟨hpc, hmx, hres⟩ := h
  by_cases hp : st.paragraphContent ≠ []
  · have hnone : st.inList = none := hmx hp
    rw [closeParagraph, if_pos hp]
    refine ⟨⟨SC.nil, by simp, ?_⟩, rfl, rfl⟩
    show ResOk (st.resultHtml ++ "<p>".toList ++ st.paragraphContent ++ "</p>".toList) st.inList
    rw [hnone]
    rw [hnone] at hres
    show WFSeq _
    have hitem : WFItem ("<p>".toList ++ st.paragraphContent ++ "</p>".toList) :=
      WFItem.para st.paragraphContent hpc
    have heq : st.resultHtml ++ "<p>".toList ++ st.paragraphContent ++ "</p>".toList =
        st.resultHtml ++ ("<p>".toList ++ st.paragraphContent ++ "</p>".toList) := by
      simp [List.append_assoc]
    rw [heq]
    exact WFSeq_snoc hres hitem
  · rw [closeParagraph, if_neg hp]
    push_neg at hp
    exact ⟨⟨hpc, hmx, hres⟩, hp, rfl⟩

theorem closeList_inv {st : BState} (h : MInv st) :
    MInv (closeList st) ∧ (closeList st).inList = none ∧
      (closeList st).paragraphContent = st.paragraphContent := by
  obtain ⟨hpc, hmx, hres⟩ := h
  cases hin : st.inList with
  | none =>
    have : closeList st = st := by rw [closeList, hin]
    rw [this]
    exact ⟨⟨hpc, hmx, hres⟩, hin, rfl⟩
  | some k =>
    rw [closeList, hin]
    rw [hin] at hres
    obtain ⟨parts, lis, hparts, hlis, hshape⟩ := hres
    refine ⟨⟨hpc, by intro _; rfl, ?_⟩, rfl, rfl⟩
    show ResOk (st.resultHtml ++ lkClose k) none
    show WFSeq (st.resultHtml ++ lkClose k)
    rw [hshape]
    have hitem : WFItem (lkOpen k ++ lis ++ lkClose k) := WFItem.list k lis hlis
    have heq : parts.flatten ++ lkOpen k ++ lis ++ lkClose k =
        parts.flatten ++ (lkOpen k ++ lis ++ lkClose k) := by
      simp [List.append_assoc]
    rw [heq]
    exact WFSeq_snoc ⟨parts, hparts, rfl⟩ hitem

theorem WFSeq_append_item {res x y : List Char} (hres : WFSeq res) (hx : WFItem x)
    (hy : y = res ++ x) : WFSeq y := hy ▸ WFSeq_snoc hres hx

theorem matchHeading_bounds {line : List Char} {n : Nat} {txt : List Char}
    (h : matchHeading line = some (n, txt)) : 1 ≤ n ∧ n ≤ 6 := by
  simp only [matchHeading] at h
  split_ifs at h with hc
  · simp only [Option.some.injEq, Prod.mk.injEq] at h
    obtain ⟨hn, -⟩ := h
    subst hn
    exact ⟨hc.1, hc.2.1⟩

theorem SC_para_br : SC paraTags "<br>".toList := by
  have h1 : SC paraTags ("<br>".toList ++ []) :=
    SC.tag "<br>".toList [] (Or.inr rfl) (by decide) SC.nil
  simpa using h1

theorem processLine_inv {st : BState} (line : List Char) (h : MInv st) :
    MInv (processLine st line) := by
  cases hH : matchHeading line with
  | some nt =>
    obtain ⟨n, txt⟩ := nt
    have hb : 1 ≤ n ∧ n ≤ 6 := matchHeading_bounds hH
    simp only [processLine, hH]
    obtain ⟨hinv1, hpc1, hin1⟩ := closeParagraph_inv h
    obtain ⟨hinv2, hin2, hpc2⟩ := closeList_inv hinv1
    obtain ⟨hpcs, hmxs, hress⟩ := hinv2
    rw [hin2] at hress
    refine ⟨hpcs, fun _ => hin2, ?_⟩
    show ResOk _ (closeList (closeParagraph st)).inList
    rw [hin2]
    show WFSeq _
    refine WFSeq_append_item hress
      (WFItem.hd n (processInline txt) hb.1 hb.2 (SC_processInline txt)) ?_
    simp [List.append_assoc]
  | none =>
    simp only [processLine, hH]
    by_cases hHr : matchHr line = true
    · simp only [hHr, if_true]
      obtain ⟨hinv1, hpc1, hin1⟩ := closeParagraph_inv h
      obtain ⟨hinv2, hin2, hpc2⟩ := closeList_inv hinv1
      obtain ⟨hpcs, hmxs, hress⟩ := hinv2
      rw [hin2] at hress
      refine ⟨hpcs, fun _ => hin2, ?_⟩
      show ResOk _ (closeList (closeParagraph st)).inList
      rw [hin2]
      show WFSeq _
      exact WFSeq_append_item hress WFItem.hrule rfl
    · simp only [hHr, if_false, Bool.false_eq_true]
      cases hU : matchUl line with
      | some txt =>
        simp only [hU]
        obtain ⟨hinv1, hpc1, hin1⟩ := closeParagraph_inv h
        by_cases hul : (closeParagraph st).inList = some LK.ul
        · simp only [hul, ne_eq, not_true_eq_false, if_false, Bool.false_eq_true]
          obtain ⟨hpcs, hmxs, hress⟩ := hinv1
          rw [hul] at hress
          obtain ⟨parts, lis, hparts, hlis, hshape⟩ := hress
          refine ⟨hpcs, fun hne => absurd hpc1 hne, ?_⟩
          show ResOk _ (some LK.ul)
          refine ⟨parts, lis ++ ("<li>".toList ++ processInline txt ++ "</li>".toList),
            hparts, LiSeq_snoc hlis (SC_processInline txt), ?_⟩
          show (closeParagraph st).resultHtml ++ "<li>".toList ++ processInline txt ++
              "</li>".toList = parts.flatten ++ lkOpen LK.ul ++
              (lis ++ ("<li>".toList ++ processInline txt ++ "</li>".toList))
          rw [hshape]
          simp [List.append_assoc]
        · simp only [hul, ne_eq, not_false_eq_true, if_true]
          obtain ⟨hinv2, hin2, hpc2⟩ := closeList_inv hinv1
          obtain ⟨hpcs, hmxs, hress⟩ := hinv2
          rw [hin2] at hress
          obtain ⟨parts, hparts, hflat⟩ := hress
          refine ⟨hpcs, fun hne => absurd (hpc2.trans hpc1) hne, ?_⟩
          show ResOk _ (some LK.ul)
          refine ⟨parts, "<li>".toList ++ processInline txt ++ "</li>".toList ++ [],
            hparts, LiSeq.cons (processInline txt) [] (SC_processInline txt) LiSeq.nil, ?_⟩
          show (closeList (closeParagraph st)).resultHtml ++ "<ul>".toList ++ "<li>".toList ++
              processInline txt ++ "</li>".toList = parts.flatten ++ lkOpen LK.ul ++
              ("<li>".toList ++ processInline txt ++ "</li>".toList ++ [])
          rw [hflat]
          simp [lkOpen, List.append_assoc]
      | none =>
        simp only [hU]
        cases hO : matchOl line with
        | some txt =>
          simp only [hO]
          obtain ⟨hinv1, hpc1, hin1⟩ := closeParagraph_inv h
          by_cases hol : (closeParagraph st).inList = some LK.ol
          · simp only [hol, ne_eq, not_true_eq_false, if_false, Bool.false_eq_true]
            obtain ⟨hpcs, hmxs, hress⟩ := hinv1
            rw [hol] at hress
            obtain ⟨parts, lis, hparts, hlis, hshape⟩ := hress
            refine ⟨hpcs, fun hne => absurd hpc1 hne, ?_⟩
            show ResOk _ (some LK.ol)
            refine ⟨parts, lis ++ ("<li>".toList ++ processInline txt ++ "</li>".toList),
              hparts, LiSeq_snoc hlis (SC_processInline txt), ?_⟩
            show (closeParagraph st).resultHtml ++ "<li>".toList ++ processInline txt ++
                "</li>".toList = parts.flatten ++ lkOpen LK.ol ++
                (lis ++ ("<li>".toList ++ processInline txt ++ "</li>".toList))
            rw [hshape]
            simp [List.append_assoc]
          · simp only [hol, ne_eq, not_false_eq_true, if_true]
            obtain ⟨hinv2, hin2, hpc2⟩ := closeList_inv hinv1
            obtain ⟨hpcs, hmxs, hress⟩ := hinv2
            rw [hin2] at hress
            obtain ⟨parts, hparts, hflat⟩ := hress
            refine ⟨hpcs, fun hne => absurd (hpc2.trans hpc1) hne, ?_⟩
            show ResOk _ (some LK.ol)
            refine ⟨parts, "<li>".toList ++ processInline txt ++ "</li>".toList ++ [],
              hparts, LiSeq.cons (processInline txt) [] (SC_processInline txt) LiSeq.nil, ?_⟩
            show (closeList (closeParagraph st)).resultHtml ++ "<ol>".toList ++ "<li>".toList ++
                processInline txt ++ "</li>".toList = parts.flatten ++ lkOpen LK.ol ++
                ("<li>".toList ++ processInline txt ++ "</li>".toList ++ [])
            rw [hflat]
            simp [lkOpen, List.append_assoc]
        | none =>
          simp only [hO]
          obtain ⟨hinv1, hin1, hpc1⟩ := closeList_inv h
          by_cases htrim : jsTrim line ≠ []
          · rw [if_pos htrim]
            obtain ⟨hpcs, hmxs, hress⟩ := hinv1
            rw [hin1] at hress
            refine ⟨?_, fun _ => hin1, ?_⟩
            · refine SC_append (SC_append hpcs ?_) (SC_mono (fun t ht => Or.inl ht)
                (SC_processInline line))
              by_cases hne : (closeList st).paragraphContent ≠ []
              · rw [if_pos hne]
                exact SC_para_br
              · rw [if_neg hne]
                exact SC.nil
            · show ResOk _ (closeList st).inList
              rw [hin1]
              exact hress
          · rw [if_neg htrim]
            exact (closeParagraph_inv hinv1).1

theorem foldl_processLine_inv (lines : List (List Char)) :
    ∀ st : BState, MInv st → MInv (lines.foldl processLine st) := by
  induction lines with
  | nil => intro st h; exact h
  | cons l ls ih =>
    intro st h
    exact ih (processLine st l) (processLine_inv l h)

theorem MInv_init : MInv ⟨[], none, []⟩ :=
  ⟨SC.nil, fun hh => absurd rfl hh, WFSeq_nil⟩

theorem processOrdinary_WF (block : List Char) : WFSeq (processOrdinary block) := by
  rw [processOrdinary]
  have h1 := foldl_processLine_inv (splitLines (jsTrim block)) ⟨[], none, []⟩ MInv_init
  obtain ⟨hinv2, hpc2, hin2⟩ := closeParagraph_inv h1
  obtain ⟨hinv3, hin3, hpc3⟩ := closeList_inv hinv2
  obtain ⟨-, -, hres⟩ := hinv3
  rw [hin3] at hres
  exact hres

theorem fenceLangHere_word {l lang : List Char} (h : fenceLangHere l = some lang) :
    ∀ c ∈ lang, isWordChar c = true := by
  rw [fenceLangHere] at h
  split_ifs at h with h1
  · cases hm : (l.drop 3).dropWhile isWordChar with
    | nil => rw [hm] at h; cases h
    | cons c r =>
      simp only [hm] at h
      split_ifs at h with h2
      · simp only [Option.some.injEq] at h
        subst h
        intro c hc
        exact List.mem_takeWhile_imp hc

theorem findLangMatch_word {lang : List Char} :
    ∀ {l : List Char}, findLangMatch l = some lang → ∀ c ∈ lang, isWordChar c = true := by
  intro l
  induction l with
  | nil => intro h; simp [findLangMatch] at h
  | cons c0 rest ih =>
    intro h
    rw [findLangMatch] at h
    cases hf : fenceLangHere (c0 :: rest) with
    | some r =>
      rw [hf] at h
      simp only [Option.some.injEq] at h
      subst h
      exact fenceLangHere_word hf
    | none =>
      rw [hf] at h
      exact ih h

theorem renderCodeBlock_WFItem (block : List Char) : WFItem (renderCodeBlock block) := by
  simp only [renderCodeBlock]
  refine WFItem.pre _ _ ?_ (escapeHtmlL_textSafe _)
  cases hf : findLangMatch block with
  | none =>
    left
    simp [hf]
  | some lang =>
    by_cases hl : lang ≠ []
    · right
      refine ⟨lang, hl, findLangMatch_word hf, ?_⟩
      simp [hf, hl]
    · left
      push_neg at hl
      simp [hf, hl]

theorem markdownToHtml_WFSeq (s : List Char) : WFSeq (markdownToHtml s) := by
  rw [markdownToHtml_eq_flatten]
  generalize splitCodeFences s = bs
  induction bs with
  | nil => exact WFSeq_nil
  | cons b bs ih =>
    simp only [List.map_cons, List.flatten_cons]
    refine WFSeq_append ?_ ih
    rw [renderSegment]
    by_cases hb : b.take 3 = [btick, btick, btick]
    · rw [if_pos hb]
      exact WFSeq_item (renderCodeBlock_WFItem b)
    · rw [if_neg hb]
      exact processOrdinary_WF b

/-- C5: in every ordinary segment the open paragraph and the open list are
flushed before a different block element is emitted and at the end of the
segment; consequently the whole output of the converter is a concatenation
of complete well-formed block elements — in particular every `<li>` lies
inside a properly opened and closed `<ul>`/`<ol>` — and a list immediately
followed by a heading closes the list before the heading appears. -/
theorem flush_discipline_wellformed :
    (∀ block : List Char, WFSeq (processOrdinary block)) ∧
    (∀ s : List Char, WFSeq (markdownToHtml s)) ∧
    convert "- a\n# H" = "<ul><li>a</li></ul><h1>H</h1>" :=
  ⟨processOrdinary_WF, markdownToHtml_WFSeq, rfl⟩

/-! The emitted-tag alphabet and the safety theorem. -/

/-- The fixed tag strings the converter emits. -/
def fixedTagList : List (List Char) :=
  ["<h1>".toList, "<h2>".toList, "<h3>".toList, "<h4>".toList, "<h5>".toList, "<h6>".toList,
   "</h1>".toList, "</h2>".toList, "</h3>".toList, "</h4>".toList, "</h5>".toList, "</h6>".toList,
   "<hr>".toList, "<ul>".toList, "</ul>".toList, "<ol>".toList, "</ol>".toList,
   "<li>".toList, "</li>".toList, "<p>".toList, "</p>".toList, "<br>".toList,
   "<strong>".toList, "</strong>".toList, "<em>".toList, "</em>".toList,
   "<code>".toList, "</code>".toList, "<pre>".toList, "</pre>".toList]

/-- A tag occurrence the converter can emit: one of the fixed tags, or the
code opening tag carrying a language class built from word characters. -/
def isEmittedTag (t : List Char) : Prop :=
  t ∈ fixedTagList ∨ ∃ lang, lang ≠ [] ∧ (∀ c ∈ lang, isWordChar c = true) ∧
    t = "<code class=\"language-".toList ++ lang ++ ['\"', '>']

theorem SC_tag_only {T : List Char → Prop} {t : List Char} (ht : T t) (hne : t ≠ []) :
    SC T t := by
  have h1 := SC.tag t [] ht hne SC.nil
  simpa using h1

theorem inlineTags_emitted : ∀ t, inlineTags t → isEmittedTag t := by
  intro t ht
  rcases ht with rfl | rfl | rfl | rfl | rfl | rfl <;> exact Or.inl (by decide)

theorem paraTags_emitted : ∀ t, paraTags t → isEmittedTag t := by
  intro t ht
  rcases ht with h | rfl
  · exact inlineTags_emitted t h
  · exact Or.inl (by decide)

theorem LiSeq_SC {items : List Char} (h : LiSeq items) : SC isEmittedTag items := by
  induction h with
  | nil => exact SC.nil
  | cons t r ht _ ih =>
    have hb : SC isEmittedTag ("<li>".toList ++ (t ++ ("</li>".toList ++ r))) :=
      SC.tag _ _ (Or.inl (by decide)) (by decide)
        (SC_append (SC_mono inlineTags_emitted ht)
          (SC.tag _ _ (Or.inl (by decide)) (by decide) ih))
    simpa [List.append_assoc] using hb

theorem WFItem_SC {x : List Char} (h : WFItem x) : SC isEmittedTag x := by
  cases h with
  | hd n t h1 h6 ht =>
    have hopen : isEmittedTag ("<h".toList ++ natLit n ++ ['>']) := by
      left
      interval_cases n <;> decide
    have hclose : isEmittedTag ("</h".toList ++ natLit n ++ ['>']) := by
      left
      interval_cases n <;> decide
    have hb : SC isEmittedTag (("<h".toList ++ natLit n ++ ['>']) ++
        (t ++ ("</h".toList ++ natLit n ++ ['>']))) :=
      SC.tag _ _ hopen (by simp)
        (SC_append (SC_mono inlineTags_emitted ht) (SC_tag_only hclose (by simp)))
    simpa [List.append_assoc] using hb
  | hrule => exact SC_tag_only (Or.inl (by decide)) (by decide)
  | para t ht =>
    have hb : SC isEmittedTag ("<p>".toList ++ (t ++ "</p>".toList)) :=
      SC.tag _ _ (Or.inl (by decide)) (by decide)
        (SC_append (SC_mono paraTags_emitted ht)
          (SC_tag_only (Or.inl (by decide)) (by decide)))
    simpa [List.append_assoc] using hb
  | list k items hli =>
    have hok : isEmittedTag (lkOpen k) ∧ lkOpen k ≠ [] ∧
        isEmittedTag (lkClose k) ∧ lkClose k ≠ [] := by
      cases k <;> exact ⟨Or.inl (by decide), by decide, Or.inl (by decide), by decide⟩
    have hb : SC isEmittedTag (lkOpen k ++ (items ++ lkClose k)) :=
      SC.tag _ _ hok.1 hok.2.1
        (SC_append (LiSeq_SC hli) (SC_tag_only hok.2.2.1 hok.2.2.2))
    simpa [List.append_assoc] using hb
  | pre cls body hcls hbody =>
    rcases hcls with rfl | ⟨lang, hlne, hword, rfl⟩
    · have hb : SC isEmittedTag ("<pre>".toList ++ ("<code>".toList ++ (body ++
          ("</code>".toList ++ "</pre>".toList)))) :=
        SC.tag _ _ (Or.inl (by decide)) (by decide)
          (SC.tag _ _ (Or.inl (by decide)) (by decide)
            (SC_append (SC_of_textSafe hbody)
              (SC.tag _ _ (Or.inl (by decide)) (by decide)
                (SC_tag_only (Or.inl (by decide)) (by decide)))))
      have heq : "<pre><code".toList ++ ([] : List Char) ++ ['>'] ++ body ++
          "</code></pre>".toList
          = "<pre>".toList ++ ("<code>".toList ++ (body ++
            ("</code>".toList ++ "</pre>".toList))) := by
        simp
      rw [heq]
      exact hb
    · have htag : isEmittedTag ("<code class=\"language-".toList ++ lang ++ ['\"', '>']) :=
        Or.inr ⟨lang, hlne, hword, rfl⟩
      have hb : SC isEmittedTag ("<pre>".toList ++
          (("<code class=\"language-".toList ++ lang ++ ['\"', '>']) ++
            (body ++ ("</code>".toList ++ "</pre>".toList)))) :=
        SC.tag _ _ (Or.inl (by decide)) (by decide)
          (SC.tag _ _ htag (by simp)
            (SC_append (SC_of_textSafe hbody)
              (SC.tag _ _ (Or.inl (by decide)) (by decide)
                (SC_tag_only (Or.inl (by decide)) (by decide)))))
      have heq : "<pre><code".toList ++ (" class=\"language-".toList ++ lang ++ ['\"']) ++ ['>']
          ++ body ++ "</code></pre>".toList
          = "<pre>".toList ++ (("<code class=\"language-".toList ++ lang ++ ['\"', '>']) ++
            (body ++ ("</code>".toList ++ "</pre>".toList))) := by
        simp
      rw [heq]
      exact hb

theorem WFSeq_SC {l : List Char} (h : WFSeq l) : SC isEmittedTag l := by
  obtain ⟨parts, hparts, rfl⟩ := h
  induction parts with
  | nil => exact SC.nil
  | cons p ps ih =>
    simp only [List.flatten_cons]
    exact SC_append (WFItem_SC (hparts p (List.mem_cons_self _ _)))
      (ih fun q hq => hparts q (List.mem_cons_of_mem _ hq))

theorem isWordChar_ne_lt {c : Char} (h : isWordChar c = true) : c ≠ '<' := by
  intro hc
  subst hc
  simp [isWordChar] at h

theorem emittedTag_facts : ∀ t, isEmittedTag t →
    3 ≤ t.length ∧ t.take 3 ≠ ['<', 's', 'c'] ∧ '<' ∉ t.tail := by
  intro t ht
  rcases ht with hfix | ⟨lang, hlne, hword, rfl⟩
  · fin_cases hfix <;> exact ⟨by decide, by decide, by decide⟩
  · have hlenA : ("<code class=\"language-".toList).length = 22 := by decide
    refine ⟨?_, ?_, ?_⟩
    · rw [List.append_assoc, List.length_append, hlenA]
      omega
    · rw [List.append_assoc, List.take_append_of_le_length (by decide)]
      decide
    · have hA : "<code class=\"language-".toList =
          '<' :: "code class=\"language-".toList := by decide
      rw [hA]
      simp only [List.cons_append, List.tail_cons]
      intro hmem
      rw [List.append_assoc] at hmem
      rcases List.mem_append.mp hmem with hm | hm
      · revert hm
        decide
      · rcases List.mem_append.mp hm with hm2 | hm2
        · exact isWordChar_ne_lt (hword _ hm2) rfl
        · revert hm2
          decide

/-- The literal `<script>`. -/
def scriptTag : List Char := "<script>".toList

theorem SC_no_script {l : List Char} (h : SC isEmittedTag l) :
    ¬ ∃ a b, l = a ++ scriptTag ++ b := by
  induction h with
  | nil =>
    rintro ⟨a, b, hab⟩
    have hlen := congrArg List.length hab
    simp [scriptTag] at hlen
    omega
  | text c l' htext hsc ih =>
    rintro ⟨a, b, hab⟩
    cases a with
    | nil =>
      have hs : scriptTag = '<' :: "script>".toList := by decide
      rw [hs] at hab
      simp only [List.nil_append, List.cons_append, List.cons.injEq] at hab
      exact htext.1 hab.1
    | cons a0 a' =>
      simp only [List.cons_append, List.cons.injEq] at hab
      exact ih ⟨a', b, hab.2⟩
  | tag t0 l0 ht hne hsc ih =>
    rintro ⟨a, b, hab⟩
    rw [List.append_assoc] at hab
    rcases List.append_eq_append_iff.mp hab with ⟨a', ha, hl0⟩ | ⟨c', hc', hsb⟩
    · refine ih ⟨a', b, ?_⟩
      rw [hl0, List.append_assoc]
    · cases c' with
      | nil =>
        simp only [List.nil_append] at hsb
        refine ih ⟨[], b, ?_⟩
        simp [hsb]
      | cons e c'' =>
        obtain ⟨hlen3, htake3, htail⟩ := emittedTag_facts t0 ht
        have hs : scriptTag = '<' :: "script>".toList := by decide
        rw [hs] at hsb
        simp only [List.cons_append, List.cons.injEq] at hsb
        obtain ⟨he, hsb'⟩ := hsb
        subst he
        cases a with
        | nil =>
          have ht0 : t0 = '<' :: c'' := by simpa using hc'
          have hc2len : 2 ≤ c''.length := by
            have hl := congrArg List.length ht0
            simp at hl
            omega
          have h1 : c''.take 2 = ['s', 'c'] := by
            have h2 : (c'' ++ l0).take 2 = c''.take 2 :=
              List.take_append_of_le_length hc2len
            rw [← hsb'] at h2
            rw [List.take_append_of_le_length (by decide)] at h2
            have h3 : ("script>".toList).take 2 = ['s', 'c'] := by decide
            rw [h3] at h2
            exact h2.symm
          apply htake3
          rw [ht0, List.take_succ_cons, h1]
        | cons a0 a'' =>
          apply htail
          rw [hc']
          simp only [List.cons_append, List.tail_cons]
          simp

/-- C4: the escaper is a deterministic total function equal to the
characterwise map sending exactly the five characters `&`, `<`, `>`, `"`,
`'` to `&amp;`, `&lt;`, `&gt;`, `&quot;`, `&#039;` and leaving every other
character unchanged; the sequential implementation performs the `&`
replacement first, which is exactly why it agrees with this one-pass map —
the entity strings inserted for the other four characters are never
re-escaped. -/
theorem escaper_charwise_exact :
    (∀ s : List Char, escapeHtmlL s = (s.map escHtmlCharSpec).flatten) ∧
    escHtmlCharSpec '&' = "&amp;".toList ∧
    escHtmlCharSpec '<' = "&lt;".toList ∧
    escHtmlCharSpec '>' = "&gt;".toList ∧
    escHtmlCharSpec '"' = "&quot;".toList ∧
    escHtmlCharSpec apos = "&#039;".toList ∧
    (∀ c : Char, c = '&' ∨ c = '<' ∨ c = '>' ∨ c = '"' ∨ c = apos ∨
      escHtmlCharSpec c = [c]) := by
  refine ⟨escapeHtmlL_eq_flatten, rfl, rfl, rfl, rfl, by decide, ?_⟩
  intro c
  by_cases h1 : c = '&'
  · exact Or.inl h1
  by_cases h2 : c = '<'
  · exact Or.inr (Or.inl h2)
  by_cases h3 : c = '>'
  · exact Or.inr (Or.inr (Or.inl h3))
  by_cases h4 : c = '"'
  · exact Or.inr (Or.inr (Or.inr (Or.inl h4)))
  by_cases h5 : c = apos
  · exact Or.inr (Or.inr (Or.inr (Or.inr (Or.inl h5))))
  refine Or.inr (Or.inr (Or.inr (Or.inr (Or.inr ?_))))
  simp [escHtmlCharSpec, h1, h2, h3, h4, h5]

/-! Ampersand discipline: every `&` in the output begins one of the five
entities the escaper inserts. -/

/-- Tails of the five entity strings the escaper inserts (what must follow
an ampersand for it to be escaped). -/
def entityTails : List (List Char) :=
  ["amp;".toList, "lt;".toList, "gt;".toList, "quot;".toList, "#039;".toList]

/-- Every ampersand occurrence in `l` is escaped: the characters after it
start one of the five entity tails, so `l` contains no unescaped `&`. -/
def AmpOk (l : List Char) : Prop :=
  ∀ a b, l = a ++ '&' :: b → ∃ e ∈ entityTails, b.take e.length = e

theorem AmpOk_nil : AmpOk [] := by
  intro a b hab
  exact absurd hab.symm (by simp)

theorem AmpOk_append_right {u v : List Char} (h : AmpOk (u ++ v)) : AmpOk v := by
  intro a b hab
  refine h (u ++ a) b ?_
  rw [hab, List.append_assoc]

theorem AmpOk_tail {c : Char} {l : List Char} (h : AmpOk (c :: l)) : AmpOk l :=
  AmpOk_append_right (u := [c]) h

theorem AmpOk_cons {c : Char} {l : List Char} (hc : c ≠ '&') (h : AmpOk l) :
    AmpOk (c :: l) := by
  intro a b hab
  cases a with
  | nil =>
    simp only [List.nil_append, List.cons.injEq] at hab
    exact absurd hab.1 hc
  | cons a0 a' =>
    simp only [List.cons_append, List.cons.injEq] at hab
    exact h a' b hab.2

theorem AmpOk_of_no_amp {l : List Char} (h : ∀ c ∈ l, c ≠ '&') : AmpOk l := by
  intro a b hab
  exact absurd rfl (h '&' (hab ▸ List.mem_append_right a (List.mem_cons_self _ _)))

theorem AmpOk_append {x y : List Char} (hx : AmpOk x) (hy : AmpOk y) :
    AmpOk (x ++ y) := by
  intro a b hab
  rcases List.append_eq_append_iff.mp hab with ⟨a', rfl, hy'⟩ | ⟨c', hx', hcb⟩
  · exact hy a' b hy'
  · cases c' with
    | nil =>
      simp only [List.nil_append] at hcb
      exact hy [] b hcb.symm
    | cons e0 c'' =>
      simp only [List.cons_append, List.cons.injEq] at hcb
      obtain ⟨rfl, hb⟩ := hcb
      obtain ⟨e, he, htake⟩ := hx a c'' hx'
      have hlen : e.length ≤ c''.length := by
        have h1 := congrArg List.length htake
        rw [List.length_take] at h1
        omega
      refine ⟨e, he, ?_⟩
      rw [hb, List.take_append_of_le_length hlen, htake]

theorem AmpOk_split {d : Char} {x y : List Char}
    (hd : ∀ e ∈ entityTails, d ∉ e)
    (h : AmpOk (x ++ d :: y)) : AmpOk x ∧ AmpOk y := by
  constructor
  · intro a b hab
    obtain ⟨e, he, htake⟩ := h a (b ++ d :: y) (by rw [hab, List.append_assoc]; rfl)
    by_cases hlen : e.length ≤ b.length
    · refine ⟨e, he, ?_⟩
      rw [List.take_append_of_le_length hlen] at htake
      exact htake
    · exfalso
      push_neg at hlen
      obtain ⟨k, hk⟩ : ∃ k, e.length = b.length + (k + 1) := ⟨e.length - b.length - 1, by omega⟩
      rw [hk, List.take_append, List.take_succ_cons] at htake
      exact hd e he (htake ▸ List.mem_append_right _ (List.mem_cons_self _ _))
  · intro a b hab
    refine h (x ++ d :: a) b ?_
    rw [hab]
    simp [List.append_assoc]

theorem AmpOk_amp_cons {e l : List Char} (he : e ∈ entityTails) (hl : AmpOk (e ++ l)) :
    AmpOk ('&' :: (e ++ l)) := by
  intro a b hab
  cases a with
  | nil =>
    simp only [List.nil_append, List.cons.injEq] at hab
    obtain ⟨-, hb⟩ := hab
    refine ⟨e, he, ?_⟩
    rw [← hb, List.take_append_of_le_length (Nat.le_refl _), List.take_length]
  | cons a0 a' =>
    simp only [List.cons_append, List.cons.injEq] at hab
    exact hl a' b hab.2

theorem entityTails_no_amp : ∀ e ∈ entityTails, ∀ c ∈ e, c ≠ '&' := by decide

theorem entityTails_no_star : ∀ e ∈ entityTails, '*' ∉ e := by decide

theorem entityTails_no_btick : ∀ e ∈ entityTails, btick ∉ e := by decide

theorem AmpOk_entity {tl : List Char} (he : tl ∈ entityTails) (hno : ∀ c ∈ tl, c ≠ '&') :
    AmpOk ('&' :: tl) := by
  have h0 : AmpOk (tl ++ []) := AmpOk_of_no_amp (by simpa using hno)
  have h1 := AmpOk_amp_cons he h0
  simpa using h1

theorem escHtmlCharSpec_AmpOk (c : Char) : AmpOk (escHtmlCharSpec c) := by
  unfold escHtmlCharSpec
  split_ifs with h1 h2 h3 h4 h5
  · rw [(by decide : "&amp;".toList = '&' :: "amp;".toList)]
    exact AmpOk_entity (by decide) (by decide)
  · rw [(by decide : "&lt;".toList = '&' :: "lt;".toList)]
    exact AmpOk_entity (by decide) (by decide)
  · rw [(by decide : "&gt;".toList = '&' :: "gt;".toList)]
    exact AmpOk_entity (by decide) (by decide)
  · rw [(by decide : "&quot;".toList = '&' :: "quot;".toList)]
    exact AmpOk_entity (by decide) (by decide)
  · rw [(by decide : "&#039;".toList = '&' :: "#039;".toList)]
    exact AmpOk_entity (by decide) (by decide)
  · refine AmpOk_of_no_amp ?_
    intro x hx
    simp only [List.mem_singleton] at hx
    subst hx
    exact h1

theorem escapeHtmlL_AmpOk (s : List Char) : AmpOk (escapeHtmlL s) := by
  induction s with
  | nil => exact AmpOk_nil
  | cons c t ih =>
    rw [escapeHtmlL_cons]
    exact AmpOk_append (escHtmlCharSpec_AmpOk c) ih

theorem AmpOk_spanRepl {d : Char} {opn cls : List Char}
    (hdent : ∀ e ∈ entityTails, d ∉ e)
    (hopn : ∀ c ∈ opn, c ≠ '&') (hcls : ∀ c ∈ cls, c ≠ '&') :
    ∀ (n : Nat) (l : List Char), l.length ≤ n → AmpOk l → AmpOk (spanRepl d opn cls l) := by
  intro n
  induction n with
  | zero =>
    intro l hl _
    have : l = [] := List.eq_nil_of_length_eq_zero (Nat.le_zero.mp hl)
    subst this
    rw [spanRepl_nil]
    exact AmpOk_nil
  | succ n ih =>
    intro l hl h
    cases l with
    | nil =>
      rw [spanRepl_nil]
      exact AmpOk_nil
    | cons c t =>
      by_cases hcond : c = d ∧ t.takeWhile (· ≠ d) ≠ [] ∧ t.dropWhile (· ≠ d) ≠ []
      · rw [spanRepl_cons_match opn cls hcond]
        obtain ⟨hcd, hrun, hrest⟩ := hcond
        obtain ⟨r, hr⟩ := dropWhile_ne_head hrest
        have hdecomp : t = t.takeWhile (· ≠ d) ++ d :: r := by
          conv_lhs => rw [← List.takeWhile_append_dropWhile (fun x => decide (x ≠ d)) t]
          rw [hr]
        have ht : AmpOk (t.takeWhile (· ≠ d) ++ d :: r) := by
          rw [← hdecomp]
          exact AmpOk_tail h
        obtain ⟨hrun2, hr2⟩ := AmpOk_split hdent ht
        have hrtail : (t.dropWhile (· ≠ d)).tail = r := by rw [hr]; rfl
        rw [hrtail]
        have hlen : r.length ≤ n := by
          have hdl : (t.dropWhile (fun x => decide (x ≠ d))).length ≤ t.length :=
            length_dropWhile_le _ _
          rw [hr, List.length_cons] at hdl
          rw [List.length_cons] at hl
          omega
        exact AmpOk_append (AmpOk_append (AmpOk_append (AmpOk_of_no_amp hopn) hrun2)
          (AmpOk_of_no_amp hcls)) (ih r hlen hr2)
      · rw [spanRepl_cons_else opn cls hcond]
        by_cases hamp : c = '&'
        · subst hamp
          obtain ⟨e, he, htake⟩ := h [] t rfl
          have hnoD : ∀ x ∈ e, x ≠ d := fun x hx hxd => hdent e he (hxd ▸ hx)
          have hteq : t = e ++ t.drop e.length := by
            conv_lhs => rw [← List.take_append_drop e.length t]
            rw [htake]
          have hdroplen : (t.drop e.length).length ≤ n := by
            rw [List.length_drop]
            rw [List.length_cons] at hl
            omega
          have hdropAmp : AmpOk (t.drop e.length) := by
            refine AmpOk_append_right (u := e) ?_
            rw [← hteq]
            exact AmpOk_tail h
          rw [hteq, spanRepl_hom opn cls e (t.drop e.length) hnoD]
          exact AmpOk_amp_cons he (AmpOk_append (AmpOk_of_no_amp (entityTails_no_amp e he))
            (ih (t.drop e.length) hdroplen hdropAmp))
        · refine AmpOk_cons hamp (ih t ?_ (AmpOk_tail h))
          rw [List.length_cons] at hl
          omega

theorem AmpOk_spanRepl2 {d : Char} {opn cls : List Char}
    (hdent : ∀ e ∈ entityTails, d ∉ e)
    (hopn : ∀ c ∈ opn, c ≠ '&') (hcls : ∀ c ∈ cls, c ≠ '&') :
    ∀ (n : Nat) (l : List Char), l.length ≤ n → AmpOk l → AmpOk (spanRepl2 d opn cls l) := by
  intro n
  induction n with
  | zero =>
    intro l hl _
    have : l = [] := List.eq_nil_of_length_eq_zero (Nat.le_zero.mp hl)
    subst this
    rw [spanRepl2_nil]
    exact AmpOk_nil
  | succ n ih =>
    intro l hl h
    match l with
    | [] =>
      rw [spanRepl2_nil]
      exact AmpOk_nil
    | [c] =>
      rw [spanRepl2_single]
      by_cases hamp : c = '&'
      · subst hamp
        obtain ⟨e, he, htake⟩ := h [] [] rfl
        have : e = [] := by
          have hlen := congrArg List.length htake
          rw [List.length_take] at hlen
          simp at hlen
          exact List.eq_nil_of_length_eq_zero (by omega)
        subst this
        exact absurd he (by decide)
      · exact AmpOk_cons hamp AmpOk_nil
    | c1 :: c2 :: t =>
      by_cases hcond : c1 = d ∧ c2 = d ∧ t.takeWhile (· ≠ d) ≠ [] ∧
          (t.dropWhile (· ≠ d)).take 2 = [d, d]
      · rw [spanRepl2_cons_match opn cls hcond]
        obtain ⟨hc1, hc2, hrun, htake⟩ := hcond
        have hrest : ∃ r, t.dropWhile (· ≠ d) = d :: d :: r := by
          cases hr : t.dropWhile (· ≠ d) with
          | nil => rw [hr] at htake; simp at htake
          | cons x xs =>
            cases xs with
            | nil => rw [hr] at htake; simp at htake
            | cons y ys =>
              rw [hr] at htake
              simp [List.take] at htake
              obtain ⟨hx, hy⟩ := htake
              subst hx
              subst hy
              exact ⟨ys, rfl⟩
        obtain ⟨r, hr⟩ := hrest
        have hdecomp : t = t.takeWhile (· ≠ d) ++ d :: (d :: r) := by
          conv_lhs => rw [← List.takeWhile_append_dropWhile (fun x => decide (x ≠ d)) t]
          rw [hr]
        have ht : AmpOk (t.takeWhile (· ≠ d) ++ d :: (d :: r)) := by
          rw [← hdecomp]
          exact AmpOk_tail (AmpOk_tail h)
        obtain ⟨hrun2, hdr⟩ := AmpOk_split hdent ht
        have hr2 : AmpOk r := AmpOk_tail hdr
        have hdrop2 : (t.dropWhile (· ≠ d)).drop 2 = r := by rw [hr]; rfl
        rw [hdrop2]
        have hlen : r.length ≤ n := by
          have hdl : (t.dropWhile (fun x => decide (x ≠ d))).length ≤ t.length :=
            length_dropWhile_le _ _
          rw [hr, List.length_cons, List.length_cons] at hdl
          rw [List.length_cons, List.length_cons] at hl
          omega
        exact AmpOk_append (AmpOk_append (AmpOk_append (AmpOk_of_no_amp hopn) hrun2)
          (AmpOk_of_no_amp hcls)) (ih r hlen hr2)
      · rw [spanRepl2_cons_else opn cls hcond]
        by_cases hamp : c1 = '&'
        · subst hamp
          obtain ⟨e, he, htake⟩ := h [] (c2 :: t) rfl
          have hnoD : ∀ x ∈ e, x ≠ d := fun x hx hxd => hdent e he (hxd ▸ hx)
          have hteq : c2 :: t = e ++ (c2 :: t).drop e.length := by
            conv_lhs => rw [← List.take_append_drop e.length (c2 :: t)]
            rw [htake]
          have hdroplen : ((c2 :: t).drop e.length).length ≤ n := by
            rw [List.length_drop]
            rw [List.length_cons, List.length_cons] at hl
            simp only [List.length_cons]
            omega
          have hdropAmp : AmpOk ((c2 :: t).drop e.length) := by
            refine AmpOk_append_right (u := e) ?_
            rw [← hteq]
            exact AmpOk_tail h
          rw [hteq, spanRepl2_hom opn cls e ((c2 :: t).drop e.length) hnoD]
          exact AmpOk_amp_cons he (AmpOk_append (AmpOk_of_no_amp (entityTails_no_amp e he))
            (ih ((c2 :: t).drop e.length) hdroplen hdropAmp))
        · refine AmpOk_cons hamp (ih (c2 :: t) ?_ (AmpOk_tail h))
          rw [List.length_cons, List.length_cons] at hl
          simp only [List.length_cons]
          omega

theorem processInline_AmpOk (line : List Char) : AmpOk (processInline line) := by
  refine AmpOk_spanRepl entityTails_no_btick (by decide) (by decide) _ _ (Nat.le_refl _) ?_
  refine AmpOk_spanRepl entityTails_no_star (by decide) (by decide) _ _ (Nat.le_refl _) ?_
  refine AmpOk_spanRepl2 entityTails_no_star (by decide) (by decide) _ _ (Nat.le_refl _) ?_
  exact escapeHtmlL_AmpOk line

/-- Ampersand invariant of the machine state: both accumulators contain
only escaped ampersands. -/
def AInv (st : BState) : Prop := AmpOk st.resultHtml ∧ AmpOk st.paragraphContent

theorem closeParagraph_ainv {st : BState} (h : AInv st) : AInv (closeParagraph st) := by
  obtain ⟨hres, hpc⟩ := h
  rw [closeParagraph]
  split_ifs with hp
  · exact ⟨AmpOk_append (AmpOk_append (AmpOk_append hres (AmpOk_of_no_amp (by decide))) hpc)
      (AmpOk_of_no_amp (by decide)), AmpOk_nil⟩
  · exact ⟨hres, hpc⟩

theorem closeList_ainv {st : BState} (h : AInv st) : AInv (closeList st) := by
  obtain ⟨hres, hpc⟩ := h
  cases hin : st.inList with
  | none =>
    rw [closeList, hin]
    exact ⟨hres, hpc⟩
  | some k =>
    rw [closeList, hin]
    refine ⟨AmpOk_append hres (AmpOk_of_no_amp ?_), hpc⟩
    cases k <;> decide

theorem natLit_no_amp {n : Nat} (h1 : 1 ≤ n) (h6 : n ≤ 6) : ∀ c ∈ natLit n, c ≠ '&' := by
  interval_cases n <;> decide

theorem processLine_ainv {st : BState} (line : List Char) (h : AInv st) :
    AInv (processLine st line) := by
  cases hH : matchHeading line with
  | some nt =>
    obtain ⟨n, txt⟩ := nt
    obtain ⟨hb1, hb6⟩ := matchHeading_bounds hH
    simp only [processLine, hH]
    obtain ⟨hres, hpc⟩ := closeList_ainv (closeParagraph_ainv h)
    refine ⟨?_, hpc⟩
    exact AmpOk_append (AmpOk_append (AmpOk_append (AmpOk_append (AmpOk_append (AmpOk_append
      (AmpOk_append hres (AmpOk_of_no_amp (by decide)))
      (AmpOk_of_no_amp (natLit_no_amp hb1 hb6)))
      (AmpOk_of_no_amp (by decide)))
      (processInline_AmpOk txt))
      (AmpOk_of_no_amp (by decide)))
      (AmpOk_of_no_amp (natLit_no_amp hb1 hb6)))
      (AmpOk_of_no_amp (by decide))
  | none =>
    simp only [processLine, hH]
    by_cases hHr : matchHr line = true
    · simp only [hHr, if_true]
      obtain ⟨hres, hpc⟩ := closeList_ainv (closeParagraph_ainv h)
      exact ⟨AmpOk_append hres (AmpOk_of_no_amp (by decide)), hpc⟩
    · simp only [hHr, if_false, Bool.false_eq_true]
      cases hU : matchUl line with
      | some txt =>
        simp only [hU]
        obtain ⟨hres1, hpc1⟩ := closeParagraph_ainv h
        by_cases hul : (closeParagraph st).inList = some LK.ul
        · simp only [hul, ne_eq, not_true_eq_false, if_false, Bool.false_eq_true]
          exact ⟨AmpOk_append (AmpOk_append (AmpOk_append hres1
            (AmpOk_of_no_amp (by decide))) (processInline_AmpOk txt))
            (AmpOk_of_no_amp (by decide)), hpc1⟩
        · simp only [hul, ne_eq, not_false_eq_true, if_true]
          obtain ⟨hres2, hpc2⟩ := closeList_ainv (⟨hres1, hpc1⟩ : AInv (closeParagraph st))
          exact ⟨AmpOk_append (AmpOk_append (AmpOk_append (AmpOk_append hres2
            (AmpOk_of_no_amp (by decide))) (AmpOk_of_no_amp (by decide)))
            (processInline_AmpOk txt)) (AmpOk_of_no_amp (by decide)), hpc2⟩
      | none =>
        simp only [hU]
        cases hO : matchOl line with
        | some txt =>
          simp only [hO]
          obtain ⟨hres1, hpc1⟩ := closeParagraph_ainv h
          by_cases hol : (closeParagraph st).inList = some LK.ol
          · simp only [hol, ne_eq, not_true_eq_false, if_false, Bool.false_eq_true]
            exact ⟨AmpOk_append (AmpOk_append (AmpOk_append hres1
              (AmpOk_of_no_amp (by decide))) (processInline_AmpOk txt))
              (AmpOk_of_no_amp (by decide)), hpc1⟩
          · simp only [hol, ne_eq, not_false_eq_true, if_true]
            obtain ⟨hres2, hpc2⟩ := closeList_ainv (⟨hres1, hpc1⟩ : AInv (closeParagraph st))
            exact ⟨AmpOk_append (AmpOk_append (AmpOk_append (AmpOk_append hres2
              (AmpOk_of_no_amp (by decide))) (AmpOk_of_no_amp (by decide)))
              (processInline_AmpOk txt)) (AmpOk_of_no_amp (by decide)), hpc2⟩
        | none =>
          simp only [hO]
          obtain ⟨hres1, hpc1⟩ := closeList_ainv h
          by_cases htrim : jsTrim line ≠ []
          · rw [if_pos htrim]
            refine ⟨hres1, AmpOk_append (AmpOk_append hpc1 ?_) (processInline_AmpOk line)⟩
            by_cases hne : (closeList st).paragraphContent ≠ []
            · rw [if_pos hne]
              exact AmpOk_of_no_amp (by decide)
            · rw [if_neg hne]
              exact AmpOk_nil
          · rw [if_neg htrim]
            exact closeParagraph_ainv ⟨hres1, hpc1⟩

theorem foldl_processLine_ainv (lines : List (List Char)) :
    ∀ st : BState, AInv st → AInv (lines.foldl processLine st) := by
  induction lines with
  | nil =>
    intro st h
    exact h
  | cons l ls ih =>
    intro st h
    exact ih (processLine st l) (processLine_ainv l h)

theorem processOrdinary_AmpOk (block : List Char) : AmpOk (processOrdinary block) := by
  rw [processOrdinary]
  exact (closeList_ainv (closeParagraph_ainv
    (foldl_processLine_ainv (splitLines (jsTrim block)) ⟨[], none, []⟩
      ⟨AmpOk_nil, AmpOk_nil⟩))).1

theorem isWordChar_ne_amp {c : Char} (h : isWordChar c = true) : c ≠ '&' := by
  intro hc
  subst hc
  simp [isWordChar] at h

theorem langClass_no_amp (block : List Char) :
    ∀ c ∈ (if (findLangMatch block).getD [] ≠ [] then
      " class=\"language-".toList ++ (findLangMatch block).getD [] ++ ['\"'] else
      ([] : List Char)), c ≠ '&' := by
  cases hf : findLangMatch block with
  | none => simp [hf]
  | some lang =>
    simp only [hf, Option.getD_some]
    split_ifs with hl
    · intro c hc
      rcases List.mem_append.mp hc with hm | hm
      · rcases List.mem_append.mp hm with hm2 | hm2
        · exact (by decide : ∀ x ∈ " class=\"language-".toList, x ≠ '&') c hm2
        · exact isWordChar_ne_amp (findLangMatch_word hf c hm2)
      · exact (by decide : ∀ x ∈ ['\"'], x ≠ '&') c hm
    · simp

theorem renderCodeBlock_AmpOk (block : List Char) : AmpOk (renderCodeBlock block) := by
  simp only [renderCodeBlock]
  exact AmpOk_append (AmpOk_append (AmpOk_append (AmpOk_append
    (AmpOk_of_no_amp (by decide)) (AmpOk_of_no_amp (langClass_no_amp block)))
    (AmpOk_of_no_amp (by decide))) (escapeHtmlL_AmpOk _))
    (AmpOk_of_no_amp (by decide))

theorem markdownToHtml_AmpOk (s : List Char) : AmpOk (markdownToHtml s) := by
  rw [markdownToHtml_eq_flatten]
  generalize splitCodeFences s = bs
  induction bs with
  | nil => exact AmpOk_nil
  | cons b bs ih =>
    simp only [List.map_cons, List.flatten_cons]
    refine AmpOk_append ?_ ih
    rw [renderSegment]
    by_cases hb : b.take 3 = [btick, btick, btick]
    · rw [if_pos hb]
      exact renderCodeBlock_AmpOk b
    · rw [if_neg hb]
      exact processOrdinary_AmpOk b

/-- C1: every converter output is a concatenation of whole emitted tags
(h1-h6, hr, ul, ol, li, p, br, pre, code with optional language class,
strong, em) and escaped text characters, none of which is `<`, `>`, `"` or
`'`; moreover every `&` in the output is escaped, i.e. begins one of the
five entities the escaper inserts; consequently no output — whatever the
input, including inputs containing `<script>` — contains the substring
`<script>`. -/
theorem output_tag_structure_safe :
    (∀ s : List Char, SC isEmittedTag (markdownToHtml s)) ∧
    (∀ s : List Char, AmpOk (markdownToHtml s)) ∧
    (∀ s : List Char, ¬ ∃ a b, markdownToHtml s = a ++ scriptTag ++ b) :=
  ⟨fun s => WFSeq_SC (markdownToHtml_WFSeq s),
   markdownToHtml_AmpOk,
   fun s => SC_no_script (WFSeq_SC (markdownToHtml_WFSeq s))⟩

theorem output_tag_structure_safe_witness :
    SC isEmittedTag (markdownToHtml "<script> a&b ".toList) ∧
    AmpOk (markdownToHtml "<script> a&b ".toList) ∧
    ¬ ∃ a b, markdownToHtml "<script> a&b ".toList = a ++ scriptTag ++ b :=
  ⟨output_tag_structure_safe.1 "<script> a&b ".toList,
   output_tag_structure_safe.2.1 "<script> a&b ".toList,
   output_tag_structure_safe.2.2 "<script> a&b ".toList⟩
